import Mathlib

/-!
Verification of the brainfuck compiler/VM (tokenizer.rs, vm.rs).

Machine integers are embedded as Nat with explicit reductions modulo
2^8 (u8), 2^32 (u32) and 2^64 (usize, 64-bit platform) at exactly the
points where the Rust code performs wrapping arithmetic or casts.
Release-mode semantics is modelled: integer wrap-around on overflow,
slice indexing out of bounds is a panic (a distinguished outcome).
-/

namespace BF

/-- The instruction set, Token in tokenizer.rs.  Payloads are u8
(IncrementData, DecrementData), usize (IncrementPointer,
DecrementPointer) and u32 (LoopStart, LoopEnd), all embedded as Nat. -/
inductive Token where
  | IncrementData (x : Nat)
  | DecrementData (x : Nat)
  | IncrementPointer (x : Nat)
  | DecrementPointer (x : Nat)
  | Input
  | Output
  | LoopStart (x : Nat)
  | LoopEnd (x : Nat)
  deriving DecidableEq, Repr

/-- TokenizerErrorKind in tokenizer.rs.  UncloseLeftBracket is raised on
a right bracket with an empty stack (the spec calls this
UnmatchedClosingBracket); UncloseRightBracket is raised at end of source
with a non-empty stack (the spec calls it UnmatchedOpeningBracket). -/
inductive TokenizerErrorKind where
  | UncloseLeftBracket
  | UncloseRightBracket
  deriving DecidableEq, Repr

/-- TokenizerError in tokenizer.rs: line, col (i32) and kind. -/
structure TokenizerError where
  line : Int
  col : Int
  kind : TokenizerErrorKind
  deriving DecidableEq, Repr

/-- Scan state of the tokenizer loop: emitted instructions, the bracket
stack (head is the top, i.e. the most recently pushed entry, matching
Vec push/pop at the back), and the current line/col.  The Rust local pc
always equals ir.len() as u32 at the start of an iteration, so it is
recomputed rather than stored. -/
structure ScanState where
  ir : List Token
  stk : List (Nat × Int × Int)
  line : Int
  col : Int
  deriving DecidableEq, Repr

/-- One iteration of the character loop of tokenizer (tokenizer.rs).
Note that col is reset by a newline but never incremented elsewhere,
exactly as in the source. -/
def scanChar (s : ScanState) (c : Char) : Except TokenizerError ScanState :=
  let pc : Nat := s.ir.length % 2 ^ 32
  if c = '\n' then .ok { s with line := s.line + 1, col := 0 }
  else if c = '+' then .ok { s with ir := s.ir ++ [.IncrementData 1] }
  else if c = '-' then .ok { s with ir := s.ir ++ [.DecrementData 1] }
  else if c = '>' then .ok { s with ir := s.ir ++ [.IncrementPointer 1] }
  else if c = '<' then .ok { s with ir := s.ir ++ [.DecrementPointer 1] }
  else if c = ',' then .ok { s with ir := s.ir ++ [.Input] }
  else if c = '.' then .ok { s with ir := s.ir ++ [.Output] }
  else if c = '[' then
    .ok { s with stk := (pc, s.line, s.col) :: s.stk,
                 ir := s.ir ++ [.LoopStart 0] }
  else if c = ']' then
    match s.stk with
    | [] => .error ⟨s.line, s.col, .UncloseLeftBracket⟩
    | (org, _, _) :: rest =>
      let ir1 := s.ir ++ [.LoopEnd org]
      let ir2 := if ir1.get? org = some (.LoopStart 0)
                 then ir1.set org (.LoopStart pc) else ir1
      .ok { s with ir := ir2, stk := rest }
  else .ok s

/-- The initial scan state: no instructions, empty stack, line 1, col 0. -/
def initScan : ScanState := ⟨[], [], 1, 0⟩

/-- tokenizer (tokenizer.rs): scan all characters, then fail with
UncloseRightBracket at the position of the most recently pushed open
bracket if the stack is non-empty. -/
def tokenizer (src : List Char) : Except TokenizerError (List Token) :=
  match src.foldlM scanChar initScan with
  | .error e => .error e
  | .ok s =>
    match s.stk with
    | (_, line, col) :: _ => .error ⟨line, col, .UncloseRightBracket⟩
    | [] => .ok s.ir

/-- Selector for the run-folding macro instantiated at IncrementData. -/
def selIncData : Token → Option Nat
  | .IncrementData d => some d
  | _ => none

/-- Selector for the run-folding macro instantiated at DecrementData. -/
def selDecData : Token → Option Nat
  | .DecrementData d => some d
  | _ => none

/-- Selector for the run-folding macro instantiated at IncrementPointer. -/
def selIncPtr : Token → Option Nat
  | .IncrementPointer d => some d
  | _ => none

/-- Selector for the run-folding macro instantiated at DecrementPointer. -/
def selDecPtr : Token → Option Nat
  | .DecrementPointer d => some d
  | _ => none

/-- The inner while loop of the _flod_ir macro in optimize
(tokenizer.rs): starting at index j with accumulator x, as long as
tokens[j] is the same variant, add its payload with wrapping_add
(modulo m: 256 for the data ops, 2^64 for the pointer ops) and advance.
Returns the final (j, x).  The fuel argument is len - j, so the
structural recursion mirrors the while loop exactly. -/
def foldRunAux (tokens : List Token) (sel : Token → Option Nat) (m len : Nat) :
    Nat → Nat → Nat → Nat × Nat
  | 0, j, x => (j, x)
  | fuel + 1, j, x =>
    if j < len then
      match sel (tokens.getD j .Input) with
      | some d => foldRunAux tokens sel m len fuel (j + 1) ((x + d) % m)
      | none => (j, x)
    else (j, x)

/-- Entry point of the folding scan, with fuel len - j. -/
def foldRun (tokens : List Token) (sel : Token → Option Nat) (m len j x : Nat) :
    Nat × Nat :=
  foldRunAux tokens sel m len (len - j) j x

/-- Result of optimize: ok with the compacted sequence, panicked when a
LoopEnd is reached with an empty stack (stk.pop().unwrap() in the
source), or fuelOut, which is proved unreachable for the fuel used by
optimize since the observer strictly increases every iteration. -/
inductive OptResult where
  | ok (tokens : List Token)
  | panicked
  | fuelOut
  deriving DecidableEq, Repr

/-- The while loop of optimize (tokenizer.rs).  State: the token buffer
(written in place), the read cursor observer, the write cursor writer,
and the stack of pending LoopStart write positions.  The loop exits
when observer reaches len and the buffer is truncated to writer.
LoopStart pushes the write position and emits a placeholder
LoopStart(0); LoopEnd pops org, patches tokens[org] to
LoopStart(writer as u32) when it still is the placeholder, and emits
LoopEnd(org as u32). -/
def optLoopAux (len : Nat) :
    Nat → List Token → Nat → Nat → List Nat → OptResult
  | 0, tokens, observer, writer, _ =>
    if observer < len then .fuelOut else .ok (tokens.take writer)
  | fuel + 1, tokens, observer, writer, stk =>
    if observer < len then
      match tokens.getD observer .Input with
      | .IncrementData x =>
        match foldRun tokens selIncData 256 len (observer + 1) (x % 256) with
        | (j, y) =>
          optLoopAux len fuel (tokens.set writer (.IncrementData y)) j
            (writer + 1) stk
      | .DecrementData x =>
        match foldRun tokens selDecData 256 len (observer + 1) (x % 256) with
        | (j, y) =>
          optLoopAux len fuel (tokens.set writer (.DecrementData y)) j
            (writer + 1) stk
      | .IncrementPointer x =>
        match foldRun tokens selIncPtr (2 ^ 64) len (observer + 1)
            (x % 2 ^ 64) with
        | (j, y) =>
          optLoopAux len fuel (tokens.set writer (.IncrementPointer y)) j
            (writer + 1) stk
      | .DecrementPointer x =>
        match foldRun tokens selDecPtr (2 ^ 64) len (observer + 1)
            (x % 2 ^ 64) with
        | (j, y) =>
          optLoopAux len fuel (tokens.set writer (.DecrementPointer y)) j
            (writer + 1) stk
      | .Input =>
        optLoopAux len fuel (tokens.set writer .Input) (observer + 1)
          (writer + 1) stk
      | .Output =>
        optLoopAux len fuel (tokens.set writer .Output) (observer + 1)
          (writer + 1) stk
      | .LoopStart _ =>
        optLoopAux len fuel (tokens.set writer (.LoopStart 0)) (observer + 1)
          (writer + 1) (writer :: stk)
      | .LoopEnd _ =>
        match stk with
        | [] => .panicked
        | org :: rest =>
          let t1 := if tokens.get? org = some (.LoopStart 0)
                    then tokens.set org (.LoopStart (writer % 2 ^ 32))
                    else tokens
          optLoopAux len fuel (t1.set writer (.LoopEnd (org % 2 ^ 32)))
            (observer + 1) (writer + 1) rest
    else .ok (tokens.take writer)

/-- optimize (tokenizer.rs).  Fuel len suffices because every loop
iteration advances observer by at least one. -/
def optimize (tokens : List Token) : OptResult :=
  optLoopAux tokens.length tokens.length tokens 0 0 []

/-- MEMORY_SIZE in vm.rs: 4 MiB. -/
def MEMORY_SIZE : Nat := 4 * 1024 * 1024

/-- VmError in vm.rs restricted to the variants run and new can
produce: InstructionIsNull (empty program), IoErr (the IO variant,
wrapping a std io error), PointerOverFlow. -/
inductive VmError where
  | InstructionIsNull
  | IoErr
  | PointerOverFlow
  deriving DecidableEq, Repr

/-- Outcome of one read of a single byte from stdin, the three arms of
the match in the Input case of VM::run: Ok(0) is end of input, Ok(1)
delivers a byte, Err is an io error. -/
inductive ReadRes where
  | eof
  | byte (b : Nat)
  | fail
  deriving DecidableEq, Repr

/-- Machine state of VM::run: program counter, data pointer, memory (a
total function; cells are u8 values), bytes written so far, and the
number of reads performed so far (which read of the input stream comes
next). -/
structure VmState where
  pc : Nat
  point : Nat
  mem : Nat → Nat
  out : List Nat
  reads : Nat

/-- Result of one iteration of the dispatch loop: continue in a new
state, return an error, or panic (out-of-bounds slice index, which in
Rust aborts in both debug and release mode). -/
inductive Step where
  | cont (s : VmState)
  | err (e : VmError)
  | panicked

/-- u8 wrapping subtraction of x from a cell value c, the embedding of
c.wrapping-style two's-complement subtraction modulo 256. -/
def sub8 (c x : Nat) : Nat := (c + (256 - x % 256)) % 256

/-- usize wrapping subtraction modulo 2^64 (release-mode point -= x). -/
def sub64 (p x : Nat) : Nat := (p + (2 ^ 64 - x % 2 ^ 64)) % 2 ^ 64

/-- One iteration of the dispatch loop of VM::run (vm.rs), for a state
with pc < inst.length.  Every case ends with the pc advance by one that
follows the match in the source; the loop cases first set pc to the
target when the cell test succeeds and the target passes the
x as usize <= inst_len guard.  The DecrementPointer case performs the
source's bit-shift test ((point + x) >> (size_of::<usize>() - 1)) == 0xf,
i.e. a right shift by 7 on a 64-bit platform, then the wrapping
subtraction. -/
def vmStep (inst : List Token) (input : Nat → ReadRes) (s : VmState) : Step :=
  match inst.getD s.pc .Input with
  | .IncrementData x =>
    if s.point < MEMORY_SIZE then
      .cont { s with
        mem := fun i => if i = s.point then (s.mem s.point + x) % 256
                        else s.mem i,
        pc := s.pc + 1 }
    else .panicked
  | .DecrementData x =>
    if s.point < MEMORY_SIZE then
      .cont { s with
        mem := fun i => if i = s.point then sub8 (s.mem s.point) x
                        else s.mem i,
        pc := s.pc + 1 }
    else .panicked
  | .IncrementPointer x =>
    if (s.point + x) % 2 ^ 64 ≥ MEMORY_SIZE then .err .PointerOverFlow
    else .cont { s with point := (s.point + x) % 2 ^ 64, pc := s.pc + 1 }
  | .DecrementPointer x =>
    if ((s.point + x) % 2 ^ 64) >>> 7 = 0xf then .err .PointerOverFlow
    else .cont { s with point := sub64 s.point x, pc := s.pc + 1 }
  | .Output =>
    if s.point < MEMORY_SIZE then
      .cont { s with out := s.out ++ [s.mem s.point], pc := s.pc + 1 }
    else .panicked
  | .Input =>
    match input s.reads with
    | .eof => .cont { s with reads := s.reads + 1, pc := s.pc + 1 }
    | .byte b =>
      if s.point < MEMORY_SIZE then
        .cont { s with
          mem := fun i => if i = s.point then b % 256 else s.mem i,
          reads := s.reads + 1, pc := s.pc + 1 }
      else .panicked
    | .fail => .err .IoErr
  | .LoopStart x =>
    if s.point < MEMORY_SIZE then
      if s.mem s.point = 0 then
        if x ≤ inst.length then .cont { s with pc := x + 1 }
        else .cont { s with pc := s.pc + 1 }
      else .cont { s with pc := s.pc + 1 }
    else .panicked
  | .LoopEnd x =>
    if s.point < MEMORY_SIZE then
      if s.mem s.point ≠ 0 then
        if x ≤ inst.length then .cont { s with pc := x + 1 }
        else .cont { s with pc := s.pc + 1 }
      else .cont { s with pc := s.pc + 1 }
    else .panicked

/-- Terminal outcome of a run: Ok(()), Err(e), or a panic. -/
inductive RunOutcome where
  | ok
  | err (e : VmError)
  | panicked
  deriving DecidableEq, Repr

/-- The while loop of VM::run with fuel: none means the fuel ran out
before the run finished.  On termination the outcome is paired with the
list of bytes written to the output stream.  LoopStart reads of the
cell also require the pointer to be a valid index (self.mem[point] in
the source panics otherwise). -/
def vmRun (inst : List Token) (input : Nat → ReadRes) :
    Nat → VmState → Option (RunOutcome × List Nat)
  | 0, s => if s.pc < inst.length then none else some (.ok, s.out)
  | fuel + 1, s =>
    if s.pc < inst.length then
      match vmStep inst input s with
      | .cont s1 => vmRun inst input fuel s1
      | .err e => some (.err e, s.out)
      | .panicked => some (.panicked, s.out)
    else some (.ok, s.out)

/-- Initial machine state of VM::run: pc 0, pointer 0, zeroed memory,
no output, no reads. -/
def initState : VmState := ⟨0, 0, fun _ => 0, [], 0⟩

/-- The VM structure of vm.rs without the memory buffer itself (the
buffer is zero-initialized and lives in the run state here): the
instruction sequence, its stored length, and the stored memory length. -/
structure VMachine where
  inst : List Token
  instLen : Nat
  memLen : Nat
  deriving DecidableEq, Repr

/-- VM::new (vm.rs): fails with InstructionIsNull on a zero-length
instruction sequence, otherwise builds the machine with a 4 MiB
zeroed memory. -/
def VM.new (inst : List Token) : Except VmError VMachine :=
  if inst.length = 0 then .error .InstructionIsNull
  else .ok ⟨inst, inst.length, MEMORY_SIZE⟩

/-- Program counter of the state a step continues in, if any. -/
def stepPc : Step → Option Nat
  | .cont s => some s.pc
  | _ => none

/-- Decidable equality for Except values with decidable components. -/
instance instDecEqExcept {α β : Type} [DecidableEq α] [DecidableEq β] :
    DecidableEq (Except α β) := fun a b =>
  match a, b with
  | .ok x, .ok y => decidable_of_iff (x = y) (by simp)
  | .error x, .error y => decidable_of_iff (x = y) (by simp)
  | .ok _, .error _ => isFalse (by simp)
  | .error _, .ok _ => isFalse (by simp)

/-- A three-instruction loop body used to exercise the LoopEnd step:
LoopStart and LoopEnd are mutually matched (indices 0 and 2). -/
def c4Inst : List Token := [.LoopStart 2, .IncrementData 1, .LoopEnd 0]

/-- A state sitting at the LoopEnd of c4Inst with a non-zero current
cell, so the backward jump is taken. -/
def c4State : VmState := ⟨2, 0, fun _ => 1, [], 0⟩

/-- An input stream that is immediately exhausted. -/
def emptyIn : Nat → ReadRes := fun _ => .eof

/-- An input stream whose reads all fail with an io error. -/
def failIn : Nat → ReadRes := fun _ => .fail

/-- The mutual bracket-target invariant of the spec: every LoopStart at
index i targets a j holding a LoopEnd whose target is i, and every
LoopEnd at index j targets an i holding the LoopStart that targets j. -/
def MutualTargets (ir : List Token) : Prop :=
  (∀ i j, ir.get? i = some (.LoopStart j) → ir.get? j = some (.LoopEnd i))
  ∧ (∀ i j, ir.get? j = some (.LoopEnd i) → ir.get? i = some (.LoopStart j))

/-- Bracket-nesting scan: threads the number of currently open loops
through a token list, failing on a LoopEnd with no open loop.  Payloads
are ignored: only the LoopStart/LoopEnd shape matters. -/
def balAux : List Token → Nat → Option Nat
  | [], d => some d
  | t :: ts, d =>
    match t with
    | .LoopStart _ => balAux ts (d + 1)
    | .LoopEnd _ =>
      match d with
      | 0 => none
      | d1 + 1 => balAux ts d1
    | _ => balAux ts d

/-- Whether a token is a loop bracket. -/
def isBracket : Token → Bool
  | .LoopStart _ => true
  | .LoopEnd _ => true
  | _ => false

/-- Invariant of the tokenizer scan state: the bracket stack is
strictly decreasing in instruction index (top newest and largest),
every stack entry points at a placeholder LoopStart(0) inside ir,
every non-placeholder LoopStart is half of a mutually matched pair,
every LoopEnd is half of a mutually matched pair with a non-zero-index
partner, every placeholder is on the stack, and the bracket shape of ir
is balanced with exactly stack-many open loops. -/
def ScanInv (s : ScanState) : Prop :=
  s.stk.Pairwise (fun a b => b.1 < a.1)
  ∧ (∀ e ∈ s.stk, e.1 < s.ir.length ∧ s.ir.get? e.1 = some (.LoopStart 0))
  ∧ (∀ i j, s.ir.get? i = some (.LoopStart j) → j ≠ 0 →
      s.ir.get? j = some (.LoopEnd i))
  ∧ (∀ i j, s.ir.get? j = some (.LoopEnd i) →
      s.ir.get? i = some (.LoopStart j) ∧ j ≠ 0)
  ∧ (∀ i, s.ir.get? i = some (.LoopStart 0) → ∃ e ∈ s.stk, e.1 = i)
  ∧ balAux s.ir 0 = some s.stk.length

/-- Invariant of the optimizer loop state: buffer length is fixed, the
write cursor trails the read cursor, the stack of pending LoopStart
write positions is strictly decreasing and below the write cursor with
placeholders in the buffer, the written region [0, w) satisfies the
matched-pair facts with no stray placeholder, and the unread suffix is
bracket-balanced against the stack depth. -/
def OptInv (len : Nat) (tokens : List Token) (obs w : Nat)
    (stk : List Nat) : Prop :=
  tokens.length = len ∧ w ≤ obs ∧ obs ≤ len
  ∧ stk.Pairwise (· > ·)
  ∧ (∀ i ∈ stk, i < w)
  ∧ (∀ i ∈ stk, tokens.get? i = some (.LoopStart 0))
  ∧ (∀ i j, i < w → tokens.get? i = some (.LoopStart j) → j ≠ 0 →
      j < w ∧ tokens.get? j = some (.LoopEnd i))
  ∧ (∀ i j, j < w → tokens.get? j = some (.LoopEnd i) →
      i < w ∧ tokens.get? i = some (.LoopStart j) ∧ j ≠ 0)
  ∧ (∀ i, i < w → tokens.get? i = some (.LoopStart 0) → i ∈ stk)
  ∧ balAux (tokens.drop obs) stk.length = some 0

/-- The basic optimizer loop invariant, without the balance and
matched-pair facts: fixed buffer length, write cursor trailing the
read cursor, and a strictly decreasing pending stack of placeholder
positions below the write cursor. -/
def OptInv1 (len : Nat) (tokens : List Token) (obs w : Nat)
    (stk : List Nat) : Prop :=
  tokens.length = len ∧ w ≤ obs ∧ obs ≤ len
  ∧ stk.Pairwise (· > ·)
  ∧ (∀ i ∈ stk, i < w)
  ∧ (∀ i ∈ stk, tokens.get? i = some (.LoopStart 0))

/-- The variant (constructor tag) of a token, ignoring payloads. -/
def tvar : Token → Nat
  | .IncrementData _ => 0
  | .DecrementData _ => 1
  | .IncrementPointer _ => 2
  | .DecrementPointer _ => 3
  | .Input => 4
  | .Output => 5
  | .LoopStart _ => 6
  | .LoopEnd _ => 7

/-- Feeding an optimizer result through optimize a second time:
a success is re-optimized, a panic stays a panic. -/
def optTwice : OptResult → OptResult
  | .ok l => optimize l
  | r => r

/-- The state reached after k unit DecrementPointer steps from the
initial state: pc k, pointer (2^64 - k) mod 2^64 (the wrapped value the
release-mode usize subtraction produces), untouched memory, no output,
no reads.  dpState 0 is the initial state. -/
def dpState (k : Nat) : VmState := ⟨k, (2 ^ 64 - k) % 2 ^ 64, fun _ => 0, [], 0⟩

/-! ## Theorems about the claims -/

/-- Scanning a single left-angle character appends one unit
DecrementPointer and changes nothing else. -/
theorem scanChar_lt (s : ScanState) :
    scanChar s '<' = .ok { s with ir := s.ir ++ [.DecrementPointer 1] } := rfl

/-- Scanning n left-angle characters appends n unit DecrementPointer
instructions. -/
theorem scan_replicate_lt (n : Nat) :
    ∀ s : ScanState, (List.replicate n '<').foldlM scanChar s
      = .ok { s with ir := s.ir ++ List.replicate n (.DecrementPointer 1) } := by
  induction n with
  | zero =>
    intro s
    simp only [List.replicate, List.append_nil]
    rfl
  | succ k ih =>
    intro s
    rw [List.replicate_succ, List.foldlM_cons, scanChar_lt]
    show (List.replicate k '<').foldlM scanChar _ = _
    rw [ih]
    simp [List.replicate_succ]

/-- The source of n left-angle characters resolves to n unit
DecrementPointer instructions. -/
theorem tokenizer_replicate_lt (n : Nat) :
    tokenizer (List.replicate n '<')
      = .ok (List.replicate n (.DecrementPointer 1)) := by
  unfold tokenizer
  rw [scan_replicate_lt]
  simp [initScan]

/-- Replicated lists index to the replicated element. -/
theorem getD_replicate {α : Type} (n i : Nat) (a d : α) (h : i < n) :
    (List.replicate n a).getD i d = a := by
  simp [List.getD, List.getElem?_replicate, h]

/-- The folding scan over a run of unit DecrementPointer instructions
consumes the whole run and accumulates its length modulo m. -/
theorem foldRunAux_decptr_ones (n m : Nat) (hm : 1 < m) :
    ∀ fuel j x, j ≤ n → n - j ≤ fuel → x < m →
      foldRunAux (List.replicate n (.DecrementPointer 1)) selDecPtr m n fuel j x
        = (n, (x + (n - j)) % m) := by
  intro fuel
  induction fuel with
  | zero =>
    intro j x hj hf hx
    have : j = n := by omega
    subst this
    simp [foldRunAux, Nat.mod_eq_of_lt hx]
  | succ f ih =>
    intro j x hj hf hx
    by_cases h : j < n
    · rw [foldRunAux, if_pos h, getD_replicate n j _ _ h]
      show foldRunAux _ selDecPtr m n f (j + 1) ((x + 1) % m) = _
      rw [ih (j + 1) ((x + 1) % m) (by omega) (by omega)
          (Nat.mod_lt _ (by omega))]
      rw [Nat.mod_add_mod]
      have : 1 + (n - (j + 1)) = n - j := by omega
      rw [Nat.add_assoc, this]
    · have : j = n := by omega
      subst this
      rw [foldRunAux, if_neg h]
      simp [Nat.mod_eq_of_lt hx]

/-- The optimizer loop on an exhausted read cursor truncates and
returns, whatever the fuel. -/
theorem optLoopAux_done (len fuel : Nat) (tokens : List Token)
    (obs w : Nat) (stk : List Nat) (h : ¬ obs < len) :
    optLoopAux len fuel tokens obs w stk = .ok (tokens.take w) := by
  cases fuel <;> simp [optLoopAux, h]

/-- Optimizing a run of n unit DecrementPointer instructions
(1 <= n < 2^64) folds it into the single instruction
DecrementPointer(n). -/
theorem optimize_replicate_decptr (n : Nat) (h1 : 1 ≤ n) (hn : n < 2 ^ 64) :
    optimize (List.replicate n (.DecrementPointer 1))
      = .ok [.DecrementPointer n] := by
  obtain ⟨k, rfl⟩ : ∃ k, n = k + 1 := ⟨n - 1, by omega⟩
  unfold optimize
  rw [List.length_replicate]
  rw [optLoopAux, if_pos (by omega : 0 < k + 1),
    getD_replicate (k + 1) 0 _ _ (by omega)]
  show optLoopAux (k + 1) (k + 1 - 1 + 1 - 1)
      ((List.replicate (k + 1) (Token.DecrementPointer 1)).set 0
        (.DecrementPointer (foldRun (List.replicate (k + 1)
          (Token.DecrementPointer 1)) selDecPtr (2 ^ 64) (k + 1)
          (0 + 1) (1 % 2 ^ 64)).2))
      (foldRun (List.replicate (k + 1) (Token.DecrementPointer 1)) selDecPtr
        (2 ^ 64) (k + 1) (0 + 1) (1 % 2 ^ 64)).1 (0 + 1) [] = _
  rw [foldRun]
  rw [foldRunAux_decptr_ones (k + 1) (2 ^ 64) (by norm_num) _ (0 + 1)
    (1 % 2 ^ 64) (by omega) (by omega) (by norm_num)]
  rw [optLoopAux_done _ _ _ _ _ _ (by omega)]
  have h2 : (1 % 2 ^ 64 + (k + 1 - (0 + 1))) % 2 ^ 64 = k + 1 := by omega
  rw [h2]
  rw [List.replicate_succ]
  simp

/-- One unit DecrementPointer step from dpState k goes to
dpState (k + 1), for k below the magic window of the bit-shift check
(for k < 1920 the shifted value never equals 0xf). -/
theorem vmStep_dpState (n k : Nat) (hn : n ≤ 1920) (hk : k < n) :
    vmStep (List.replicate n (.DecrementPointer 1)) emptyIn (dpState k)
      = .cont (dpState (k + 1)) := by
  have hg : (List.replicate n (Token.DecrementPointer 1)).getD (dpState k).pc
      .Input = .DecrementPointer 1 := getD_replicate n k _ _ hk
  have hc : ¬ (((dpState k).point + 1) % 2 ^ 64) >>> 7 = 0xf := by
    show ¬ (((2 ^ 64 - k) % 2 ^ 64 + 1) % 2 ^ 64) >>> 7 = 0xf
    rw [Nat.shiftRight_eq_div_pow]
    omega
  have hp : sub64 (dpState k).point 1 = (dpState (k + 1)).point := by
    show sub64 ((2 ^ 64 - k) % 2 ^ 64) 1 = (2 ^ 64 - (k + 1)) % 2 ^ 64
    unfold sub64
    omega
  unfold vmStep
  rw [hg]
  dsimp only
  rw [if_neg hc, hp]
  rfl

/-- Running n unit DecrementPointer instructions (n <= 1920) from
dpState k finishes with Ok and no output: the per-unit bit-shift check
never fires, the pointer just wraps. -/
theorem vmRun_dpState (n : Nat) (hn : n ≤ 1920) :
    ∀ fuel k, k ≤ n → n - k ≤ fuel →
      vmRun (List.replicate n (.DecrementPointer 1)) emptyIn fuel (dpState k)
        = some (.ok, []) := by
  intro fuel
  induction fuel with
  | zero =>
    intro k hk hf
    have : k = n := by omega
    subst this
    simp [vmRun, dpState]
  | succ f ih =>
    intro k hk hf
    by_cases h : k < n
    · rw [vmRun, if_pos (by simpa [dpState] using h),
        vmStep_dpState n k hn h]
      exact ih (k + 1) (by omega) (by omega)
    · have : k = n := by omega
      subst this
      simp [vmRun, dpState]

/-- An index that get? resolves lies within bounds. -/
theorem get?_bound {α : Type} {l : List α} {i : Nat} {a : α}
    (h : l.get? i = some a) : i < l.length := by
  by_contra hc
  rw [List.get?_len_le (by omega)] at h
  exact Option.noConfusion h

/-- Indexing into a list extended by one element: either the index hits
the old part or it is exactly the old length and yields the new last
element. -/
theorem get?_concat_cases {α : Type} {l : List α} {t v : α} {i : Nat}
    (h : (l ++ [t]).get? i = some v) :
    (i < l.length ∧ l.get? i = some v) ∨ (i = l.length ∧ v = t) := by
  by_cases hi : i < l.length
  · exact .inl ⟨hi, by rwa [List.get?_append hi] at h⟩
  · have hlen : i < l.length + 1 := by
      have := get?_bound h
      simpa using this
    have hi2 : i = l.length := by omega
    subst hi2
    rw [List.get?_concat_length] at h
    exact .inr ⟨rfl, (Option.some.inj h).symm⟩

/-- The bracket scan distributes over append. -/
theorem balAux_append (l1 l2 : List Token) : ∀ d, balAux (l1 ++ l2) d =
    match balAux l1 d with
    | none => none
    | some d1 => balAux l2 d1 := by
  induction l1 with
  | nil => intro d; rfl
  | cons t ts ih =>
    intro d
    cases t <;> cases d <;> simp [balAux, ih]

/-- The bracket scan ignores non-bracket tokens. -/
theorem balAux_nonbracket (t : Token) (h : isBracket t = false)
    (ts : List Token) (d : Nat) : balAux (t :: ts) d = balAux ts d := by
  cases t <;> simp_all [balAux, isBracket]

/-- The bracket scan is unchanged when a LoopStart payload is
rewritten in place. -/
theorem balAux_set_ls (x : Nat) : ∀ (l : List Token) (i d y : Nat),
    l.get? i = some (.LoopStart y) →
    balAux (l.set i (.LoopStart x)) d = balAux l d := by
  intro l
  induction l with
  | nil =>
    intro i d y h
    exact Option.noConfusion h
  | cons t ts ih =>
    intro i d y h
    cases i with
    | zero =>
      have : t = .LoopStart y := Option.some.inj h
      subst this
      rfl
    | succ i1 =>
      have h1 : ts.get? i1 = some (.LoopStart y) := h
      show balAux (t :: ts.set i1 (.LoopStart x)) d = balAux (t :: ts) d
      cases t <;> cases d <;> simp [balAux, ih _ _ _ h1]

/-- Appending a non-bracket instruction to the emitted sequence
preserves the scan invariant. -/
theorem ScanInv_push_simple (s : ScanState) (t : Token)
    (hb : isBracket t = false) (hinv : ScanInv s) :
    ScanInv { s with ir := s.ir ++ [t] } := by
  obtain ⟨hpw, ha, hc, hd, he, hf⟩ := hinv
  refine ⟨hpw, ?_, ?_, ?_, ?_, ?_⟩
  · intro e he1
    obtain ⟨h1, h2⟩ := ha e he1
    exact ⟨by simp; omega, by rw [List.get?_append h1]; exact h2⟩
  · intro i j hij hj
    rcases get?_concat_cases hij with ⟨hi, hold⟩ | ⟨hi, hv⟩
    · have := hc i j hold hj
      have hjb := get?_bound this
      rw [List.get?_append hjb]
      exact this
    · subst hv
      simp [isBracket] at hb
  · intro i j hij
    rcases get?_concat_cases hij with ⟨hjl, hold⟩ | ⟨hj, hv⟩
    · obtain ⟨h1, h2⟩ := hd i j hold
      have hib := get?_bound h1
      rw [List.get?_append hib]
      exact ⟨h1, h2⟩
    · subst hv
      simp [isBracket] at hb
  · intro i hij
    rcases get?_concat_cases hij with ⟨hi, hold⟩ | ⟨hi, hv⟩
    · exact he i hold
    · subst hv
      simp [isBracket] at hb
  · rw [balAux_append, hf]
    show balAux [t] s.stk.length = some s.stk.length
    rw [balAux_nonbracket t hb]
    rfl

/-- One scan step preserves the invariant, and emits at most one
instruction. -/
theorem scanChar_inv (s s1 : ScanState) (c : Char)
    (hlen : s.ir.length < 2 ^ 32) (hinv : ScanInv s)
    (h : scanChar s c = .ok s1) :
    ScanInv s1 ∧ s1.ir.length ≤ s.ir.length + 1 := by
  obtain ⟨hpw, ha, hc, hd, he, hf⟩ := hinv
  unfold scanChar at h
  by_cases h1 : c = '\n'
  · rw [if_pos h1] at h
    cases h
    exact ⟨⟨hpw, ha, hc, hd, he, hf⟩, by simp⟩
  rw [if_neg h1] at h
  by_cases h2 : c = '+'
  · rw [if_pos h2] at h
    cases h
    exact ⟨ScanInv_push_simple s _ rfl ⟨hpw, ha, hc, hd, he, hf⟩, by simp⟩
  rw [if_neg h2] at h
  by_cases h3 : c = '-'
  · rw [if_pos h3] at h
    cases h
    exact ⟨ScanInv_push_simple s _ rfl ⟨hpw, ha, hc, hd, he, hf⟩, by simp⟩
  rw [if_neg h3] at h
  by_cases h4 : c = '>'
  · rw [if_pos h4] at h
    cases h
    exact ⟨ScanInv_push_simple s _ rfl ⟨hpw, ha, hc, hd, he, hf⟩, by simp⟩
  rw [if_neg h4] at h
  by_cases h5 : c = '<'
  · rw [if_pos h5] at h
    cases h
    exact ⟨ScanInv_push_simple s _ rfl ⟨hpw, ha, hc, hd, he, hf⟩, by simp⟩
  rw [if_neg h5] at h
  by_cases h6 : c = ','
  · rw [if_pos h6] at h
    cases h
    exact ⟨ScanInv_push_simple s _ rfl ⟨hpw, ha, hc, hd, he, hf⟩, by simp⟩
  rw [if_neg h6] at h
  by_cases h7 : c = '.'
  · rw [if_pos h7] at h
    cases h
    exact ⟨ScanInv_push_simple s _ rfl ⟨hpw, ha, hc, hd, he, hf⟩, by simp⟩
  rw [if_neg h7] at h
  by_cases h8 : c = '['
  · rw [if_pos h8] at h
    cases h
    have hpc : s.ir.length % 2 ^ 32 = s.ir.length := Nat.mod_eq_of_lt hlen
    constructor
    · refine ⟨?_, ?_, ?_, ?_, ?_, ?_⟩
      · rw [List.pairwise_cons]
        exact ⟨fun e he1 => by rw [hpc]; exact (ha e he1).1, hpw⟩
      · intro e he1
        rw [List.mem_cons] at he1
        rcases he1 with rfl | he1
        · refine ⟨by simp; omega, ?_⟩
          show (s.ir ++ [Token.LoopStart 0]).get? (s.ir.length % 2 ^ 32)
            = some (.LoopStart 0)
          rw [hpc, List.get?_concat_length]
        · obtain ⟨hb1, hb2⟩ := ha e he1
          exact ⟨by simp; omega, by rw [List.get?_append hb1]; exact hb2⟩
      · intro i j hij hj
        rcases get?_concat_cases hij with ⟨hi, hold⟩ | ⟨hi, hv⟩
        · have := hc i j hold hj
          have hjb := get?_bound this
          rw [List.get?_append hjb]
          exact this
        · cases hv
          omega
      · intro i j hij
        rcases get?_concat_cases hij with ⟨hjl, hold⟩ | ⟨hj, hv⟩
        · obtain ⟨hd1, hd2⟩ := hd i j hold
          have hib := get?_bound hd1
          rw [List.get?_append hib]
          exact ⟨hd1, hd2⟩
        · exact Token.noConfusion hv
      · intro i hij
        rcases get?_concat_cases hij with ⟨hi, hold⟩ | ⟨hi, hv⟩
        · obtain ⟨e, he1, he2⟩ := he i hold
          exact ⟨e, List.mem_cons_of_mem _ he1, he2⟩
        · exact ⟨(s.ir.length % 2 ^ 32, s.line, s.col), List.mem_cons_self _ _,
            by rw [hpc, hi]⟩
      · show balAux (s.ir ++ [Token.LoopStart 0]) 0 = _
        rw [balAux_append, hf]
        rfl
    · simp
  rw [if_neg h8] at h
  by_cases h9 : c = ']'
  · rw [if_pos h9] at h
    rcases hstk : s.stk with _ | ⟨⟨org, l0, c0⟩, rest⟩
    · rw [hstk] at h
      exact Except.noConfusion h
    rw [hstk] at h
    obtain ⟨horg, hporg⟩ := ha (org, l0, c0) (by rw [hstk]; exact .head _)
    dsimp only at horg hporg
    have hpc : s.ir.length % 2 ^ 32 = s.ir.length := Nat.mod_eq_of_lt hlen
    have hcond : (s.ir ++ [Token.LoopEnd org]).get? org
        = some (.LoopStart 0) := by
      rw [List.get?_append horg]
      exact hporg
    have h0 : Except.ok (⟨if (s.ir ++ [Token.LoopEnd org]).get? org
          = some (Token.LoopStart 0) then
          (s.ir ++ [Token.LoopEnd org]).set org
            (Token.LoopStart (s.ir.length % 2 ^ 32))
        else s.ir ++ [Token.LoopEnd org], rest, s.line, s.col⟩ : ScanState)
        = Except.ok s1 := h
    rw [if_pos hcond] at h0
    cases h0
    have hlen1 : s.ir.length ≥ 1 := by omega
    have hrest : ∀ e ∈ rest, e.1 < org := by
      rw [hstk, List.pairwise_cons] at hpw
      exact fun e he1 => hpw.1 e he1
    have hpwrest : rest.Pairwise (fun a b => b.1 < a.1) := by
      rw [hstk, List.pairwise_cons] at hpw
      exact hpw.2
    set ir1 := s.ir ++ [Token.LoopEnd org] with hir1
    have hlenir1 : ir1.length = s.ir.length + 1 := by simp [hir1]
    set ir2 := ir1.set org (Token.LoopStart (s.ir.length % 2 ^ 32))
      with hir2
    have hg2org : ir2.get? org = some (.LoopStart s.ir.length) := by
      rw [hir2, hpc]
      exact List.get?_set_eq_of_lt _ (by omega)
    have hg2 : ∀ i, i ≠ org → ir2.get? i = ir1.get? i := by
      intro i hi
      exact List.get?_set_ne _ _ (fun hh => hi hh.symm)
    have hg2old : ∀ i, i ≠ org → i < s.ir.length →
        ir2.get? i = s.ir.get? i := by
      intro i hi hil
      rw [hg2 i hi, hir1, List.get?_append hil]
    have hg2end : ir2.get? s.ir.length = some (.LoopEnd org) := by
      rw [hg2 s.ir.length (by omega), hir1, List.get?_concat_length]
    constructor
    · refine ⟨hpwrest, ?_, ?_, ?_, ?_, ?_⟩
      · intro e he1
        have heo : e.1 < org := hrest e he1
        obtain ⟨hb1, hb2⟩ := ha e (by rw [hstk]; exact .tail _ he1)
        refine ⟨by simp [hir2, hir1]; omega, ?_⟩
        rw [hg2old e.1 (by omega) hb1]
        exact hb2
      · intro i j hij hj
        by_cases hio : i = org
        · subst hio
          rw [hg2org] at hij
          have hjv : j = s.ir.length := by
            have hji := Option.some.inj hij
            injection hji with hji1
            omega
          subst hjv
          rw [hg2end]
        · rw [hg2 i hio] at hij
          rcases get?_concat_cases hij with ⟨hi, hold⟩ | ⟨hi, hv⟩
          · have hcc := hc i j hold hj
            have hjo : j ≠ org := by
              intro hh
              rw [hh, hporg] at hcc
              exact absurd (Option.some.inj hcc) (by intro hh2; cases hh2)
            rw [hg2old j hjo (get?_bound hcc)]
            exact hcc
          · exact Token.noConfusion hv
      · intro i j hij
        by_cases hjo : j = org
        · subst hjo
          rw [hg2org] at hij
          exact Token.noConfusion (Option.some.inj hij)
        · rw [hg2 j hjo] at hij
          rcases get?_concat_cases hij with ⟨hjl, hold⟩ | ⟨hj, hv⟩
          · obtain ⟨hd1, hd2⟩ := hd i j hold
            have hio : i ≠ org := by
              intro hh
              rw [hh, hporg] at hd1
              have := Option.some.inj hd1
              injection this with hji
              exact hd2 hji.symm
            rw [hg2old i hio (get?_bound hd1)]
            exact ⟨hd1, hd2⟩
          · have hio : i = org := by
              cases hv
              rfl
            subst hio
            subst hj
            rw [hg2org]
            exact ⟨by rfl, by omega⟩
      · intro i hij
        by_cases hio : i = org
        · subst hio
          rw [hg2org] at hij
          have := Option.some.inj hij
          injection this with hh
          omega
        · rw [hg2 i hio] at hij
          rcases get?_concat_cases hij with ⟨hi, hold⟩ | ⟨hi, hv⟩
          · obtain ⟨e, he1, he2⟩ := he i hold
            rw [hstk, List.mem_cons] at he1
            rcases he1 with rfl | he1
            · exact absurd he2.symm hio
            · exact ⟨e, he1, he2⟩
          · exact Token.noConfusion hv
      · show balAux ir2 0 = some rest.length
        rw [hir2, balAux_set_ls _ _ _ _ _ (by rw [hir1, List.get?_append horg]; exact hporg)]
        rw [hir1, balAux_append, hf, hstk]
        rfl
    · simp [hir2, hir1]
  · rw [if_neg h9] at h
    cases h
    exact ⟨⟨hpw, ha, hc, hd, he, hf⟩, by omega⟩

/-- The initial scan state satisfies the invariant. -/
theorem ScanInv_init : ScanInv initScan := by
  refine ⟨List.Pairwise.nil, ?_, ?_, ?_, ?_, rfl⟩
  · intro e he1
    exact absurd he1 (List.not_mem_nil e)
  · intro i j hij _
    exact Option.noConfusion hij
  · intro i j hij
    exact Option.noConfusion hij
  · intro i hij
    exact Option.noConfusion hij

/-- Folding the scan over any source preserves the invariant, and the
emitted sequence grows by at most one instruction per character. -/
theorem scan_inv_fold : ∀ (src : List Char) (s : ScanState),
    ScanInv s → s.ir.length + src.length ≤ 2 ^ 32 →
    ∀ s1, src.foldlM scanChar s = .ok s1 →
      ScanInv s1 ∧ s1.ir.length ≤ s.ir.length + src.length := by
  intro src
  induction src with
  | nil =>
    intro s hinv _ s1 h
    have h1 : Except.ok s = Except.ok s1 := h
    cases h1
    exact ⟨hinv, by simp⟩
  | cons c cs ih =>
    intro s hinv hb s1 h
    simp only [List.length_cons] at hb
    rw [List.foldlM_cons] at h
    cases hsc : scanChar s c with
    | error e =>
      rw [hsc] at h
      have h1 : (Except.error e : Except TokenizerError ScanState)
          = Except.ok s1 := h
      exact Except.noConfusion h1
    | ok s2 =>
      rw [hsc] at h
      obtain ⟨hinv2, hlen2⟩ := scanChar_inv s s2 c (by omega) hinv hsc
      have h2 : cs.foldlM scanChar s2 = .ok s1 := h
      obtain ⟨hinv1, hlen1⟩ := ih s2 hinv2 (by omega) s1 h2
      refine ⟨hinv1, ?_⟩
      simp only [List.length_cons]
      omega

/-- A source that resolves successfully (and fits in the u32 index
space) yields a sequence satisfying the mutual bracket-target
invariant, with balanced bracket shape and no more instructions than
source characters. -/
theorem tokenizer_inv (src : List Char) (ir : List Token)
    (hlen : src.length ≤ 2 ^ 32) (h : tokenizer src = .ok ir) :
    MutualTargets ir ∧ balAux ir 0 = some 0 ∧ ir.length ≤ src.length := by
  unfold tokenizer at h
  cases hfd : src.foldlM scanChar initScan with
  | error e =>
    rw [hfd] at h
    exact Except.noConfusion h
  | ok s =>
    rw [hfd] at h
    dsimp only at h
    obtain ⟨hinv, hlen1⟩ := scan_inv_fold src initScan ScanInv_init
      (by simpa [initScan] using hlen) s hfd
    rcases hstk : s.stk with _ | ⟨⟨o, l0, c0⟩, rest⟩
    · rw [hstk] at h
      dsimp only at h
      cases h
      obtain ⟨hpw, ha, hc, hd, he, hbal⟩ := hinv
      rw [hstk] at hbal
      refine ⟨⟨?_, ?_⟩, by simpa using hbal, by simpa [initScan] using hlen1⟩
      · intro i j hij
        by_cases hj : j = 0
        · subst hj
          obtain ⟨e, he1, _⟩ := he i hij
          rw [hstk] at he1
          exact absurd he1 (List.not_mem_nil e)
        · exact hc i j hij hj
      · intro i j hij
        exact (hd i j hij).1
    · rw [hstk] at h
      dsimp only at h
      exact Except.noConfusion h

/-- The folding scan never moves its cursor backwards. -/
theorem foldRunAux_ge (tokens : List Token) (sel : Token → Option Nat)
    (m len : Nat) :
    ∀ fuel j x, j ≤ (foldRunAux tokens sel m len fuel j x).1 := by
  intro fuel
  induction fuel with
  | zero =>
    intro j x
    exact Nat.le_refl j
  | succ f ih =>
    intro j x
    rw [foldRunAux]
    by_cases h : j < len
    · rw [if_pos h]
      cases hs : sel (tokens.getD j .Input) with
      | some d =>
        exact Nat.le_trans (Nat.le_succ j) (ih (j + 1) ((x + d) % m))
      | none =>
        exact Nat.le_refl j
    · rw [if_neg h]

/-- The folding scan never moves its cursor past len. -/
theorem foldRunAux_le (tokens : List Token) (sel : Token → Option Nat)
    (m len : Nat) :
    ∀ fuel j x, j ≤ len → (foldRunAux tokens sel m len fuel j x).1 ≤ len := by
  intro fuel
  induction fuel with
  | zero =>
    intro j x hj
    exact hj
  | succ f ih =>
    intro j x hj
    rw [foldRunAux]
    by_cases h : j < len
    · rw [if_pos h]
      cases hs : sel (tokens.getD j .Input) with
      | some d =>
        exact ih (j + 1) ((x + d) % m) (by omega)
      | none =>
        exact hj
    · rw [if_neg h]
      exact hj

/-- Every position the folding scan walks over satisfies the
selector. -/
theorem foldRunAux_sel (tokens : List Token) (sel : Token → Option Nat)
    (m len : Nat) :
    ∀ fuel j x i, j ≤ i → i < (foldRunAux tokens sel m len fuel j x).1 →
      ∃ d, sel (tokens.getD i .Input) = some d := by
  intro fuel
  induction fuel with
  | zero =>
    intro j x i hji hi
    simp [foldRunAux] at hi
    omega
  | succ f ih =>
    intro j x i hji hi
    rw [foldRunAux] at hi
    by_cases h : j < len
    · rw [if_pos h] at hi
      cases hs : sel (tokens.getD j .Input) with
      | some d =>
        rw [hs] at hi
        by_cases hij : i = j
        · exact ⟨d, hij ▸ hs⟩
        · exact ih (j + 1) ((x + d) % m) i (by omega) hi
      | none =>
        rw [hs] at hi
        dsimp at hi
        omega
    · rw [if_neg h] at hi
      dsimp at hi
      omega

/-- Dropping up to an in-range index exposes the element there. -/
theorem drop_eq_getD_cons {l : List Token} {i : Nat} (h : i < l.length) :
    l.drop i = l.getD i .Input :: l.drop (i + 1) := by
  rw [List.drop_eq_get_cons h, List.getD_eq_get _ _ h]

/-- The bracket scan of a suffix is unchanged when the skipped segment
holds no brackets. -/
theorem balAux_drop_skip (tokens : List Token) :
    ∀ (k a : Nat), a + k ≤ tokens.length →
    (∀ i, a ≤ i → i < a + k → isBracket (tokens.getD i .Input) = false) →
    ∀ d, balAux (tokens.drop a) d = balAux (tokens.drop (a + k)) d := by
  intro k
  induction k with
  | zero =>
    intro a _ _ d
    rfl
  | succ n ih =>
    intro a hle hnb d
    have hx : a + (n + 1) = a + 1 + n := by omega
    rw [hx]
    rw [drop_eq_getD_cons (show a < tokens.length by omega),
      balAux_nonbracket _ (hnb a (Nat.le_refl a) (by omega))]
    exact ih (a + 1) (by omega) (fun i h1 h2 => hnb i (by omega) (by omega)) d

/-- A region of the buffer satisfying the matched-pair facts, with no
placeholder left, satisfies the mutual bracket-target invariant once
truncated to that region. -/
theorem optLoop_final (tokens : List Token) (w : Nat)
    (o3 : ∀ i j, i < w → tokens.get? i = some (.LoopStart j) → j ≠ 0 →
        j < w ∧ tokens.get? j = some (.LoopEnd i))
    (o4 : ∀ i j, j < w → tokens.get? j = some (.LoopEnd i) →
        i < w ∧ tokens.get? i = some (.LoopStart j) ∧ j ≠ 0)
    (o5 : ∀ i, i < w → tokens.get? i ≠ some (.LoopStart 0)) :
    MutualTargets (tokens.take w) := by
  constructor
  · intro i j hij
    have hib : i < w := by
      have := get?_bound hij
      simp at this
      omega
    rw [List.get?_take hib] at hij
    by_cases hj : j = 0
    · subst hj
      exact absurd hij (o5 i hib)
    · obtain ⟨hjw, hje⟩ := o3 i j hib hij hj
      rw [List.get?_take hjw]
      exact hje
  · intro i j hij
    have hjb : j < w := by
      have := get?_bound hij
      simp at this
      omega
    rw [List.get?_take hjb] at hij
    obtain ⟨hiw, his, _⟩ := o4 i j hjb hij
    rw [List.get?_take hiw]
    exact his

/-- Writing a non-bracket instruction at the write cursor and advancing
the read cursor over a bracket-free segment preserves the optimizer
invariant. -/
theorem OptInv_write_nonbracket (len : Nat) (tokens : List Token)
    (obs w j : Nat) (stk : List Nat) (t1 : Token)
    (hinv : OptInv len tokens obs w stk)
    (hobs : obs < len) (hj1 : obs < j) (hj2 : j ≤ len)
    (hnb : isBracket t1 = false)
    (hskip : ∀ i, obs < i → i < j → isBracket (tokens.getD i .Input) = false)
    (hcur : isBracket (tokens.getD obs .Input) = false) :
    OptInv len (tokens.set w t1) j (w + 1) stk := by
  obtain ⟨hl, hwo, hol, hpw, hsw, ho2, ho3, ho4, ho5, ho6⟩ := hinv
  have hwlen : w < len := by omega
  have hset : ∀ i, i ≠ w → (tokens.set w t1).get? i = tokens.get? i :=
    fun i hi => List.get?_set_ne _ _ (fun hh => hi hh.symm)
  have hsetw : (tokens.set w t1).get? w = some t1 :=
    List.get?_set_eq_of_lt _ (by omega)
  refine ⟨by simpa using hl, by omega, hj2, hpw, ?_, ?_, ?_, ?_, ?_, ?_⟩
  · intro i hi
    exact Nat.lt_succ_of_lt (hsw i hi)
  · intro i hi
    rw [hset i (by have := hsw i hi; omega)]
    exact ho2 i hi
  · intro i j2 hi hg hj0
    by_cases hiw : i = w
    · subst hiw
      rw [hsetw] at hg
      cases hg
      simp [isBracket] at hnb
    · rw [hset i hiw] at hg
      obtain ⟨hja, hjb⟩ := ho3 i j2 (by omega) hg hj0
      exact ⟨by omega, by rw [hset j2 (by omega)]; exact hjb⟩
  · intro i j2 hj hg
    by_cases hjw : j2 = w
    · subst hjw
      rw [hsetw] at hg
      cases hg
      simp [isBracket] at hnb
    · rw [hset j2 hjw] at hg
      obtain ⟨hia, hib, hj0⟩ := ho4 i j2 (by omega) hg
      exact ⟨by omega, by rw [hset i (by omega)]; exact hib, hj0⟩
  · intro i hi hg
    by_cases hiw : i = w
    · subst hiw
      rw [hsetw] at hg
      cases hg
      simp [isBracket] at hnb
    · rw [hset i hiw] at hg
      exact ho5 i (by omega) hg
  · rw [List.drop_set_of_lt _ _ (show w < j by omega)]
    have hnbs : ∀ i, obs ≤ i → i < obs + (j - obs) →
        isBracket (tokens.getD i .Input) = false := by
      intro i h1 h2
      by_cases hio : i = obs
      · subst hio
        exact hcur
      · exact hskip i (by omega) (by omega)
    have hsk := balAux_drop_skip tokens (j - obs) obs (by omega) hnbs
      stk.length
    rw [show obs + (j - obs) = j from by omega] at hsk
    rw [← hsk]
    exact ho6

/-- Emitting a placeholder LoopStart and pushing the write position
preserves the optimizer invariant. -/
theorem OptInv_loopstart (len : Nat) (tokens : List Token) (obs w : Nat)
    (stk : List Nat) (x : Nat) (hinv : OptInv len tokens obs w stk)
    (hobs : obs < len) (hts : tokens.getD obs .Input = .LoopStart x) :
    OptInv len (tokens.set w (.LoopStart 0)) (obs + 1) (w + 1)
      (w :: stk) := by
  obtain ⟨hl, hwo, hol, hpw, hsw, ho2, ho3, ho4, ho5, ho6⟩ := hinv
  have hwlen : w < len := by omega
  have hset : ∀ i, i ≠ w →
      (tokens.set w (.LoopStart 0)).get? i = tokens.get? i :=
    fun i hi => List.get?_set_ne _ _ (fun hh => hi hh.symm)
  have hsetw : (tokens.set w (.LoopStart 0)).get? w
      = some (.LoopStart 0) := List.get?_set_eq_of_lt _ (by omega)
  refine ⟨by simpa using hl, by omega, by omega, ?_, ?_, ?_, ?_, ?_, ?_, ?_⟩
  · rw [List.pairwise_cons]
    exact ⟨fun b hb => hsw b hb, hpw⟩
  · intro i hi
    rw [List.mem_cons] at hi
    rcases hi with rfl | hi
    · omega
    · have := hsw i hi
      omega
  · intro i hi
    rw [List.mem_cons] at hi
    rcases hi with rfl | hi
    · exact hsetw
    · rw [hset i (by have := hsw i hi; omega)]
      exact ho2 i hi
  · intro i j2 hi hg hj0
    by_cases hiw : i = w
    · subst hiw
      rw [hsetw] at hg
      cases hg
      exact absurd rfl hj0
    · rw [hset i hiw] at hg
      obtain ⟨hja, hjb⟩ := ho3 i j2 (by omega) hg hj0
      exact ⟨by omega, by rw [hset j2 (by omega)]; exact hjb⟩
  · intro i j2 hj hg
    by_cases hjw : j2 = w
    · subst hjw
      rw [hsetw] at hg
      exact Token.noConfusion (Option.some.inj hg)
    · rw [hset j2 hjw] at hg
      obtain ⟨hia, hib, hj0⟩ := ho4 i j2 (by omega) hg
      exact ⟨by omega, by rw [hset i (by omega)]; exact hib, hj0⟩
  · intro i hi hg
    by_cases hiw : i = w
    · subst hiw
      exact List.mem_cons_self _ _
    · rw [hset i hiw] at hg
      exact List.mem_cons_of_mem _ (ho5 i (by omega) hg)
  · rw [List.drop_set_of_lt _ _ (show w < obs + 1 by omega)]
    have hd : tokens.drop obs = .LoopStart x :: tokens.drop (obs + 1) := by
      rw [drop_eq_getD_cons (show obs < tokens.length by omega), hts]
    rw [hd] at ho6
    simpa [balAux] using ho6

/-- A LoopEnd reached with an empty pending stack contradicts the
balance invariant: this is the stk.pop().unwrap() that cannot fire on
balanced input. -/
theorem OptInv_loopend_empty (len : Nat) (tokens : List Token)
    (obs w x : Nat) (hinv : OptInv len tokens obs w [])
    (hobs : obs < len) (hts : tokens.getD obs .Input = .LoopEnd x) :
    False := by
  obtain ⟨hl, _, _, _, _, _, _, _, _, ho6⟩ := hinv
  rw [drop_eq_getD_cons (show obs < tokens.length by omega), hts] at ho6
  simp [balAux] at ho6

/-- Popping the pending stack at a LoopEnd, patching the matching
placeholder and emitting the LoopEnd preserves the optimizer
invariant; the popped position indeed holds the placeholder. -/
theorem OptInv_loopend (len : Nat) (tokens : List Token)
    (obs w org x : Nat) (rest : List Nat) (hlen32 : len ≤ 2 ^ 32)
    (hinv : OptInv len tokens obs w (org :: rest))
    (hobs : obs < len) (hts : tokens.getD obs .Input = .LoopEnd x) :
    tokens.get? org = some (.LoopStart 0)
    ∧ OptInv len ((tokens.set org (.LoopStart (w % 2 ^ 32))).set w
        (.LoopEnd (org % 2 ^ 32))) (obs + 1) (w + 1) rest := by
  obtain ⟨hl, hwo, hol, hpw, hsw, ho2, ho3, ho4, ho5, ho6⟩ := hinv
  have hwlen : w < len := by omega
  have horgw : org < w := hsw org (List.mem_cons_self _ _)
  have hrest : ∀ i ∈ rest, i < org :=
    fun i hi => (List.pairwise_cons.mp hpw).1 i hi
  have hpwrest : rest.Pairwise (· > ·) := (List.pairwise_cons.mp hpw).2
  have hporg : tokens.get? org = some (.LoopStart 0) :=
    ho2 org (List.mem_cons_self _ _)
  have hwm : w % 2 ^ 32 = w := Nat.mod_eq_of_lt (by omega)
  have horgm : org % 2 ^ 32 = org := Nat.mod_eq_of_lt (by omega)
  set t2 := (tokens.set org (.LoopStart (w % 2 ^ 32))).set w
    (.LoopEnd (org % 2 ^ 32)) with ht2
  have hg : ∀ i, i ≠ w → i ≠ org → t2.get? i = tokens.get? i := by
    intro i h1 h2
    rw [ht2, List.get?_set_ne _ _ (fun hh => h1 hh.symm),
      List.get?_set_ne _ _ (fun hh => h2 hh.symm)]
  have hgw : t2.get? w = some (.LoopEnd org) := by
    rw [ht2, horgm]
    exact List.get?_set_eq_of_lt _ (by simp; omega)
  have hgorg : t2.get? org = some (.LoopStart w) := by
    rw [ht2, List.get?_set_ne _ _ (show ¬ w = org by omega), hwm]
    exact List.get?_set_eq_of_lt _ (by omega)
  refine ⟨hporg, by simpa [ht2] using hl, by omega, by omega, hpwrest,
    ?_, ?_, ?_, ?_, ?_, ?_⟩
  · intro i hi
    have := hrest i hi
    omega
  · intro i hi
    rw [hg i (by have := hrest i hi; omega) (by have := hrest i hi; omega)]
    exact ho2 i (List.mem_cons_of_mem _ hi)
  · intro i j2 hi hg2 hj0
    by_cases hiw : i = w
    · subst hiw
      rw [hgw] at hg2
      exact Token.noConfusion (Option.some.inj hg2)
    by_cases hio : i = org
    · subst hio
      rw [hgorg] at hg2
      have hj2 : j2 = w := by
        have := Option.some.inj hg2
        injection this with hh
        omega
      subst hj2
      exact ⟨by omega, hgw⟩
    · rw [hg i hiw hio] at hg2
      obtain ⟨hja, hjb⟩ := ho3 i j2 (by omega) hg2 hj0
      have hj2o : j2 ≠ org := by
        intro hh
        rw [hh, hporg] at hjb
        exact Token.noConfusion (Option.some.inj hjb)
      exact ⟨by omega, by rw [hg j2 (by omega) hj2o]; exact hjb⟩
  · intro i j2 hj hg2
    by_cases hjw : j2 = w
    · subst hjw
      rw [hgw] at hg2
      have hio : i = org := by
        have := Option.some.inj hg2
        injection this with hh
        omega
      subst hio
      exact ⟨by omega, by rw [hgorg], by omega⟩
    by_cases hjo : j2 = org
    · subst hjo
      rw [hgorg] at hg2
      exact Token.noConfusion (Option.some.inj hg2)
    · rw [hg j2 hjw hjo] at hg2
      obtain ⟨hia, hib, hj0⟩ := ho4 i j2 (by omega) hg2
      have hio : i ≠ org := by
        intro hh
        rw [hh, hporg] at hib
        have := Option.some.inj hib
        injection this with hh2
        exact hj0 hh2.symm
      exact ⟨by omega, by rw [hg i (by omega) hio]; exact hib, hj0⟩
  · intro i hi hg2
    by_cases hiw : i = w
    · subst hiw
      rw [hgw] at hg2
      exact Token.noConfusion (Option.some.inj hg2)
    by_cases hio : i = org
    · subst hio
      rw [hgorg] at hg2
      have := Option.some.inj hg2
      injection this with hh
      omega
    · rw [hg i hiw hio] at hg2
      have := ho5 i (by omega) hg2
      rw [List.mem_cons] at this
      rcases this with rfl | hmem
      · exact absurd rfl hio
      · exact hmem
  · rw [ht2, List.drop_set_of_lt _ _ (show w < obs + 1 by omega),
      List.drop_set_of_lt _ _ (show org < obs + 1 by omega)]
    have hd : tokens.drop obs = .LoopEnd x :: tokens.drop (obs + 1) := by
      rw [drop_eq_getD_cons (show obs < tokens.length by omega), hts]
    rw [hd] at ho6
    simpa [balAux] using ho6

/-- When the read cursor is exhausted, the written region truncates to
a sequence satisfying the mutual bracket-target invariant. -/
theorem OptInv_exit (len : Nat) (tokens : List Token) (obs w : Nat)
    (stk : List Nat) (hinv : OptInv len tokens obs w stk)
    (hobs : ¬ obs < len) : MutualTargets (tokens.take w) := by
  obtain ⟨hl, hwo, hol, hpw, hsw, ho2, ho3, ho4, ho5, ho6⟩ := hinv
  have hdrop : tokens.drop obs = [] := List.drop_eq_nil_of_le (by omega)
  rw [hdrop] at ho6
  have hstk : (some stk.length : Option Nat) = some 0 := ho6
  have hstknil : stk = [] := List.length_eq_zero.mp (Option.some.inj hstk)
  refine optLoop_final tokens w ho3 ho4 ?_
  intro i hi hg
  have := ho5 i hi hg
  rw [hstknil] at this
  exact absurd this (List.not_mem_nil i)

/-- Definitional unfolding of the optimizer loop at a successor fuel
value. -/
theorem optLoopAux_succ (len f : Nat) (tokens : List Token) (obs w : Nat)
    (stk : List Nat) :
    optLoopAux len (f + 1) tokens obs w stk =
      if obs < len then
        match tokens.getD obs .Input with
        | .IncrementData x =>
          match foldRun tokens selIncData 256 len (obs + 1) (x % 256) with
          | (j, y) =>
            optLoopAux len f (tokens.set w (.IncrementData y)) j
              (w + 1) stk
        | .DecrementData x =>
          match foldRun tokens selDecData 256 len (obs + 1) (x % 256) with
          | (j, y) =>
            optLoopAux len f (tokens.set w (.DecrementData y)) j
              (w + 1) stk
        | .IncrementPointer x =>
          match foldRun tokens selIncPtr (2 ^ 64) len (obs + 1)
              (x % 2 ^ 64) with
          | (j, y) =>
            optLoopAux len f (tokens.set w (.IncrementPointer y)) j
              (w + 1) stk
        | .DecrementPointer x =>
          match foldRun tokens selDecPtr (2 ^ 64) len (obs + 1)
              (x % 2 ^ 64) with
          | (j, y) =>
            optLoopAux len f (tokens.set w (.DecrementPointer y)) j
              (w + 1) stk
        | .Input =>
          optLoopAux len f (tokens.set w .Input) (obs + 1) (w + 1) stk
        | .Output =>
          optLoopAux len f (tokens.set w .Output) (obs + 1) (w + 1) stk
        | .LoopStart _ =>
          optLoopAux len f (tokens.set w (.LoopStart 0)) (obs + 1)
            (w + 1) (w :: stk)
        | .LoopEnd _ =>
          match stk with
          | [] => .panicked
          | org :: rest =>
            let t1 := if tokens.get? org = some (.LoopStart 0)
                      then tokens.set org (.LoopStart (w % 2 ^ 32))
                      else tokens
            optLoopAux len f (t1.set w (.LoopEnd (org % 2 ^ 32)))
              (obs + 1) (w + 1) rest
      else .ok (tokens.take w) := rfl

/-- The optimizer loop, run with enough fuel from a state satisfying
the invariant, returns successfully with an output satisfying the
mutual bracket-target invariant. -/
theorem optLoop_inv (len : Nat) (hlen32 : len ≤ 2 ^ 32) :
    ∀ fuel tokens obs w stk, OptInv len tokens obs w stk →
    len - obs ≤ fuel →
    ∃ out, optLoopAux len fuel tokens obs w stk = .ok out
      ∧ MutualTargets out := by
  intro fuel
  induction fuel with
  | zero =>
    intro tokens obs w stk hinv hf
    have hobs : ¬ obs < len := by omega
    rw [optLoopAux, if_neg hobs]
    exact ⟨_, rfl, OptInv_exit len tokens obs w stk hinv hobs⟩
  | succ f ih =>
    intro tokens obs w stk hinv hf
    by_cases hobs : obs < len
    case neg =>
      rw [optLoopAux_succ, if_neg hobs]
      exact ⟨_, rfl, OptInv_exit len tokens obs w stk hinv hobs⟩
    rw [optLoopAux_succ, if_pos hobs]
    have hwo : w ≤ obs := hinv.2.1
    cases hts : tokens.getD obs .Input with
    | IncrementData x =>
      dsimp only
      rcases hfr : foldRun tokens selIncData 256 len (obs + 1) (x % 256)
        with ⟨j, y⟩
      have hfr1 : foldRunAux tokens selIncData 256 len (len - (obs + 1))
          (obs + 1) (x % 256) = (j, y) := hfr
      have hge : obs + 1 ≤ j := by
        have := foldRunAux_ge tokens selIncData 256 len (len - (obs + 1))
          (obs + 1) (x % 256)
        rw [hfr1] at this
        exact this
      have hle : j ≤ len := by
        have := foldRunAux_le tokens selIncData 256 len (len - (obs + 1))
          (obs + 1) (x % 256) (by omega)
        rw [hfr1] at this
        exact this
      have hskip : ∀ i, obs < i → i < j →
          isBracket (tokens.getD i .Input) = false := by
        intro i h1 h2
        obtain ⟨d, hd⟩ := foldRunAux_sel tokens selIncData 256 len
          (len - (obs + 1)) (obs + 1) (x % 256) i (by omega)
          (by rw [hfr1]; exact h2)
        cases hg : tokens.getD i .Input <;> rw [hg] at hd <;>
          simp_all [selIncData, selDecData, selIncPtr, selDecPtr, isBracket]
      exact ih (tokens.set w (.IncrementData y)) j (w + 1) stk
        (OptInv_write_nonbracket len tokens obs w j stk _ hinv hobs
          (by omega) hle rfl hskip (by rw [hts]; rfl)) (by omega)
    | DecrementData x =>
      dsimp only
      rcases hfr : foldRun tokens selDecData 256 len (obs + 1) (x % 256)
        with ⟨j, y⟩
      have hfr1 : foldRunAux tokens selDecData 256 len (len - (obs + 1))
          (obs + 1) (x % 256) = (j, y) := hfr
      have hge : obs + 1 ≤ j := by
        have := foldRunAux_ge tokens selDecData 256 len (len - (obs + 1))
          (obs + 1) (x % 256)
        rw [hfr1] at this
        exact this
      have hle : j ≤ len := by
        have := foldRunAux_le tokens selDecData 256 len (len - (obs + 1))
          (obs + 1) (x % 256) (by omega)
        rw [hfr1] at this
        exact this
      have hskip : ∀ i, obs < i → i < j →
          isBracket (tokens.getD i .Input) = false := by
        intro i h1 h2
        obtain ⟨d, hd⟩ := foldRunAux_sel tokens selDecData 256 len
          (len - (obs + 1)) (obs + 1) (x % 256) i (by omega)
          (by rw [hfr1]; exact h2)
        cases hg : tokens.getD i .Input <;> rw [hg] at hd <;>
          simp_all [selIncData, selDecData, selIncPtr, selDecPtr, isBracket]
      exact ih (tokens.set w (.DecrementData y)) j (w + 1) stk
        (OptInv_write_nonbracket len tokens obs w j stk _ hinv hobs
          (by omega) hle rfl hskip (by rw [hts]; rfl)) (by omega)
    | IncrementPointer x =>
      dsimp only
      rcases hfr : foldRun tokens selIncPtr (2 ^ 64) len (obs + 1)
        (x % 2 ^ 64) with ⟨j, y⟩
      have hfr1 : foldRunAux tokens selIncPtr (2 ^ 64) len
          (len - (obs + 1)) (obs + 1) (x % 2 ^ 64) = (j, y) := hfr
      have hge : obs + 1 ≤ j := by
        have := foldRunAux_ge tokens selIncPtr (2 ^ 64) len
          (len - (obs + 1)) (obs + 1) (x % 2 ^ 64)
        rw [hfr1] at this
        exact this
      have hle : j ≤ len := by
        have := foldRunAux_le tokens selIncPtr (2 ^ 64) len
          (len - (obs + 1)) (obs + 1) (x % 2 ^ 64) (by omega)
        rw [hfr1] at this
        exact this
      have hskip : ∀ i, obs < i → i < j →
          isBracket (tokens.getD i .Input) = false := by
        intro i h1 h2
        obtain ⟨d, hd⟩ := foldRunAux_sel tokens selIncPtr (2 ^ 64) len
          (len - (obs + 1)) (obs + 1) (x % 2 ^ 64) i (by omega)
          (by rw [hfr1]; exact h2)
        cases hg : tokens.getD i .Input <;> rw [hg] at hd <;>
          simp_all [selIncData, selDecData, selIncPtr, selDecPtr, isBracket]
      exact ih (tokens.set w (.IncrementPointer y)) j (w + 1) stk
        (OptInv_write_nonbracket len tokens obs w j stk _ hinv hobs
          (by omega) hle rfl hskip (by rw [hts]; rfl)) (by omega)
    | DecrementPointer x =>
      dsimp only
      rcases hfr : foldRun tokens selDecPtr (2 ^ 64) len (obs + 1)
        (x % 2 ^ 64) with ⟨j, y⟩
      have hfr1 : foldRunAux tokens selDecPtr (2 ^ 64) len
          (len - (obs + 1)) (obs + 1) (x % 2 ^ 64) = (j, y) := hfr
      have hge : obs + 1 ≤ j := by
        have := foldRunAux_ge tokens selDecPtr (2 ^ 64) len
          (len - (obs + 1)) (obs + 1) (x % 2 ^ 64)
        rw [hfr1] at this
        exact this
      have hle : j ≤ len := by
        have := foldRunAux_le tokens selDecPtr (2 ^ 64) len
          (len - (obs + 1)) (obs + 1) (x % 2 ^ 64) (by omega)
        rw [hfr1] at this
        exact this
      have hskip : ∀ i, obs < i → i < j →
          isBracket (tokens.getD i .Input) = false := by
        intro i h1 h2
        obtain ⟨d, hd⟩ := foldRunAux_sel tokens selDecPtr (2 ^ 64) len
          (len - (obs + 1)) (obs + 1) (x % 2 ^ 64) i (by omega)
          (by rw [hfr1]; exact h2)
        cases hg : tokens.getD i .Input <;> rw [hg] at hd <;>
          simp_all [selIncData, selDecData, selIncPtr, selDecPtr, isBracket]
      exact ih (tokens.set w (.DecrementPointer y)) j (w + 1) stk
        (OptInv_write_nonbracket len tokens obs w j stk _ hinv hobs
          (by omega) hle rfl hskip (by rw [hts]; rfl)) (by omega)
    | Input =>
      exact ih (tokens.set w .Input) (obs + 1) (w + 1) stk
        (OptInv_write_nonbracket len tokens obs w (obs + 1) stk _ hinv hobs
          (by omega) (by omega) rfl
          (fun i h1 h2 => absurd h2 (by omega)) (by rw [hts]; rfl))
        (by omega)
    | Output =>
      exact ih (tokens.set w .Output) (obs + 1) (w + 1) stk
        (OptInv_write_nonbracket len tokens obs w (obs + 1) stk _ hinv hobs
          (by omega) (by omega) rfl
          (fun i h1 h2 => absurd h2 (by omega)) (by rw [hts]; rfl))
        (by omega)
    | LoopStart x =>
      exact ih (tokens.set w (.LoopStart 0)) (obs + 1) (w + 1) (w :: stk)
        (OptInv_loopstart len tokens obs w stk x hinv hobs hts) (by omega)
    | LoopEnd x =>
      cases hstk : stk with
      | nil =>
        exact absurd hts
          (fun hh => OptInv_loopend_empty len tokens obs w x
            (hstk ▸ hinv) hobs hh)
      | cons org rest =>
        obtain ⟨hporg, hinv2⟩ := OptInv_loopend len tokens obs w org x rest
          hlen32 (hstk ▸ hinv) hobs hts
        dsimp only
        rw [if_pos hporg]
        exact ih _ (obs + 1) (w + 1) rest hinv2 (by omega)

/-- On a bracket-balanced token sequence that fits the u32 index space,
optimize succeeds and its output satisfies the mutual bracket-target
invariant. -/
theorem optimize_inv (tokens : List Token) (hlen : tokens.length ≤ 2 ^ 32)
    (hbal : balAux tokens 0 = some 0) :
    ∃ out, optimize tokens = .ok out ∧ MutualTargets out := by
  refine optLoop_inv tokens.length hlen tokens.length tokens 0 0 [] ?_
    (by omega)
  refine ⟨rfl, by omega, by omega, List.Pairwise.nil, ?_, ?_, ?_, ?_, ?_,
    by simpa using hbal⟩
  · intro i hi
    exact absurd hi (List.not_mem_nil i)
  · intro i hi
    exact absurd hi (List.not_mem_nil i)
  · intro i j hi _ _
    exact absurd hi (by omega)
  · intro i j hj _
    exact absurd hj (by omega)
  · intro i hi _
    exact absurd hi (by omega)

/-- C2: for every source on which resolution succeeds (within the u32
index space of the loop targets), the resolved sequence satisfies the
mutual bracket-target invariant, and optimizing it succeeds and again
yields a sequence satisfying the invariant in the compacted index
space. -/
theorem c2_bracket_invariant (src : List Char) (ir : List Token)
    (hlen : src.length ≤ 2 ^ 32) (h : tokenizer src = .ok ir) :
    MutualTargets ir ∧ ∃ out, optimize ir = .ok out ∧ MutualTargets out := by
  obtain ⟨hm, hb, hl⟩ := tokenizer_inv src ir hlen h
  exact ⟨hm, optimize_inv ir (by omega) hb⟩

/-- Witness for C2: the source with one loop around a decrement. -/
theorem c2_bracket_invariant_witness :
    MutualTargets [Token.LoopStart 2, .DecrementData 1, .LoopEnd 0]
    ∧ ∃ out,
      optimize [Token.LoopStart 2, .DecrementData 1, .LoopEnd 0] = .ok out
      ∧ MutualTargets out :=
  c2_bracket_invariant "[-]".data
    [Token.LoopStart 2, .DecrementData 1, .LoopEnd 0]
    (by decide) (by decide)

/-- C1 (code evaluation at the failing input): the source of 1920
left-angle characters resolves to 1920 unit DecrementPointer
instructions; running them unoptimized returns Ok with no output (the
pointer silently wraps), while the optimizer folds them into
DecrementPointer(1920), whose single step fails with PointerOverFlow
because (0 + 1920) >> 7 = 0xf.  The optimized and unoptimized programs
therefore do not produce the same success-or-error result. -/
theorem c1_optimize_divergence :
    tokenizer (List.replicate 1920 '<')
      = .ok (List.replicate 1920 (.DecrementPointer 1))
    ∧ optimize (List.replicate 1920 (.DecrementPointer 1))
      = .ok [.DecrementPointer 1920]
    ∧ vmRun (List.replicate 1920 (.DecrementPointer 1)) emptyIn 1921 initState
      = some (.ok, [])
    ∧ vmRun [.DecrementPointer 1920] emptyIn 2 initState
      = some (.err .PointerOverFlow, []) := by
  refine ⟨tokenizer_replicate_lt 1920,
    optimize_replicate_decptr 1920 (by norm_num) (by norm_num), ?_, by decide⟩
  have h0 : initState = dpState 0 := by
    unfold initState dpState
    norm_num
  rw [h0]
  exact vmRun_dpState 1920 (by norm_num) 1921 0 (by omega) (by omega)

/-- C9: resolving the source "[++++++]" yields a LoopStart with target
7, six unit increments and a LoopEnd with target 0, and optimizing that
sequence yields exactly LoopStart with target 2, IncrementData 6, and
LoopEnd with target 0. -/
theorem c9_fold_example :
    tokenizer "[++++++]".data = .ok
      [.LoopStart 7, .IncrementData 1, .IncrementData 1, .IncrementData 1,
       .IncrementData 1, .IncrementData 1, .IncrementData 1, .LoopEnd 0]
    ∧ optimize
      [.LoopStart 7, .IncrementData 1, .IncrementData 1, .IncrementData 1,
       .IncrementData 1, .IncrementData 1, .IncrementData 1, .LoopEnd 0]
      = .ok [.LoopStart 2, .IncrementData 6, .LoopEnd 0] := by
  exact ⟨by decide, by decide⟩

/-- C7: constructing a VM from a zero-length instruction sequence fails
with InstructionIsNull (the spec's EmptyProgram) before anything runs,
construction succeeds on every non-empty sequence, and both the empty
source and an all-comment source resolve to the empty sequence. -/
theorem c7_empty_program :
    VM.new [] = .error .InstructionIsNull
    ∧ (∀ inst : List Token, inst.length = 0 →
        VM.new inst = .error .InstructionIsNull)
    ∧ (∀ inst : List Token, inst ≠ [] →
        VM.new inst = .ok ⟨inst, inst.length, MEMORY_SIZE⟩)
    ∧ tokenizer "".data = .ok []
    ∧ tokenizer "comment text only".data = .ok [] := by
  refine ⟨by decide, ?_, ?_, by decide, by decide⟩
  · intro inst h
    simp [VM.new, h]
  · intro inst h
    simp [VM.new, List.length_eq_zero, h]

/-- Witness for C7: the second and third conjuncts applied at concrete
instruction sequences. -/
theorem c7_empty_program_witness :
    VM.new [] = .error .InstructionIsNull
    ∧ VM.new [.Input] = .ok ⟨[.Input], 1, MEMORY_SIZE⟩ :=
  ⟨c7_empty_program.2.1 [] rfl, c7_empty_program.2.2.1 [.Input] (by decide)⟩

/-- C3 (code evaluation at the failing inputs): the source "<" resolves
to a single DecrementPointer(1); running it from the initial state
(pointer 0) succeeds although the claim requires a PointerOutOfBounds
failure, because the code's bit-shift test ((point + x) >> 7) == 0xf is
false at point 0 and the pointer wraps around; conversely after
IncrementPointer(1919) a DecrementPointer(1) from pointer 1919 fails
with PointerOverFlow although 1 <= 1919, because (1919 + 1) >> 7 = 0xf. -/
theorem c3_underflow_check_eval :
    tokenizer "<".data = .ok [.DecrementPointer 1]
    ∧ vmRun [.DecrementPointer 1] emptyIn 2 initState = some (.ok, [])
    ∧ vmRun [.IncrementPointer 1919, .DecrementPointer 1] emptyIn 3 initState
        = some (.err .PointerOverFlow, []) := by
  exact ⟨by decide, by decide, by decide⟩

/-- C4 (counterexample): at the LoopEnd of c4Inst (target 0) with a
non-zero cell, the next instruction executed is at index 1, not at the
target index 0 as the claim states: the pc is assigned the target and
then advanced by one like every other instruction. -/
theorem c4_counterexample :
    stepPc (vmStep c4Inst emptyIn c4State) = some 1
    ∧ stepPc (vmStep c4Inst emptyIn c4State) ≠ some 0 := by
  exact ⟨by decide, by decide⟩

/-- C4 (amended): for a loop instruction whose target passes the
bounds guard, LoopStart on a zero cell continues at target + 1,
LoopEnd on a non-zero cell continues at target + 1 (one past the
matching LoopStart, whose re-test is skipped), and in the remaining
cases the pc advances by 1. -/
theorem c4_loop_dispatch (inst : List Token) (input : Nat → ReadRes)
    (s : VmState) (x : Nat) (hp : s.point < MEMORY_SIZE)
    (hx : x ≤ inst.length) :
    (inst.getD s.pc .Input = .LoopStart x →
      (s.mem s.point = 0 → vmStep inst input s = .cont { s with pc := x + 1 })
      ∧ (s.mem s.point ≠ 0 →
          vmStep inst input s = .cont { s with pc := s.pc + 1 }))
    ∧ (inst.getD s.pc .Input = .LoopEnd x →
      (s.mem s.point ≠ 0 → vmStep inst input s = .cont { s with pc := x + 1 })
      ∧ (s.mem s.point = 0 →
          vmStep inst input s = .cont { s with pc := s.pc + 1 })) := by
  constructor <;> intro h <;> constructor <;> intro hc <;>
    (unfold vmStep; rw [h]; simp [hp, hx, hc])

/-- Witness for C4 (amended): the LoopEnd case of c4Inst at a non-zero
cell continues at target + 1 = 1. -/
theorem c4_loop_dispatch_witness :
    vmStep c4Inst emptyIn c4State = .cont { c4State with pc := 1 } :=
  ((c4_loop_dispatch c4Inst emptyIn c4State 0 (by decide) (by decide)).2
    rfl).1 (by decide)

set_option maxRecDepth 100000 in
/-- C5: IncrementData adds its count to the current cell modulo 256 and
DecrementData subtracts it modulo 256 (stated as the congruence
(cell1 + x) % 256 = cell % 256 together with cell1 < 256); neither can
fail, and the pointer and output are untouched.  The final conjunct is
the concrete wraparound case of the spec: 254 unit increments followed
by 5 more leave the cell at 3, observed through Output. -/
theorem c5_data_arithmetic (inst : List Token) (input : Nat → ReadRes)
    (s : VmState) (x : Nat) (hp : s.point < MEMORY_SIZE) :
    (inst.getD s.pc .Input = .IncrementData x →
      ∃ s1, vmStep inst input s = .cont s1
        ∧ s1.mem s.point = (s.mem s.point + x) % 256
        ∧ s1.pc = s.pc + 1 ∧ s1.point = s.point ∧ s1.out = s.out)
    ∧ (inst.getD s.pc .Input = .DecrementData x →
      ∃ s1, vmStep inst input s = .cont s1
        ∧ (s1.mem s.point + x) % 256 = s.mem s.point % 256
        ∧ s1.mem s.point < 256
        ∧ s1.pc = s.pc + 1 ∧ s1.point = s.point ∧ s1.out = s.out)
    ∧ vmRun ((List.replicate 254 (.IncrementData 1)
          ++ List.replicate 5 (.IncrementData 1)) ++ [.Output])
        emptyIn 300 initState = some (.ok, [3]) := by
  refine ⟨?_, ?_, by decide⟩
  · intro h
    refine ⟨{ s with
        pc := s.pc + 1
        mem := (fun i =>
          if i = s.point then (s.mem s.point + x) % 256 else s.mem i) },
      ?_, by simp, rfl, rfl, rfl⟩
    unfold vmStep
    rw [h]
    simp [hp]
  · intro h
    refine ⟨{ s with
        pc := s.pc + 1
        mem := (fun i =>
          if i = s.point then sub8 (s.mem s.point) x else s.mem i) },
      ?_, ?_, ?_, rfl, rfl, rfl⟩
    · unfold vmStep
      rw [h]
      simp [hp]
    · simp [sub8]
      omega
    · simp [sub8]
      omega

/-- Witness for C5: both data cases at concrete inputs. -/
theorem c5_data_arithmetic_witness :
    (∃ s1, vmStep [.IncrementData 5] emptyIn initState = .cont s1
      ∧ s1.mem initState.point = (initState.mem initState.point + 5) % 256
      ∧ s1.pc = initState.pc + 1 ∧ s1.point = initState.point
      ∧ s1.out = initState.out)
    ∧ (∃ s1, vmStep [.DecrementData 5] emptyIn initState = .cont s1
      ∧ (s1.mem initState.point + 5) % 256 = initState.mem initState.point % 256
      ∧ s1.mem initState.point < 256
      ∧ s1.pc = initState.pc + 1 ∧ s1.point = initState.point
      ∧ s1.out = initState.out) :=
  ⟨(c5_data_arithmetic [.IncrementData 5] emptyIn initState 5 (by decide)).1
      rfl,
   (c5_data_arithmetic [.DecrementData 5] emptyIn initState 5
      (by decide)).2.1 rfl⟩

/-- C6 (counterexample): for the source consisting of an open bracket
on line 1 and another on line 2, the tokenizer reports the position of
the most recently pushed unmatched bracket (line 2), not the oldest
one (line 1) as the claim states. -/
theorem c6_counterexample :
    tokenizer "[\n[".data = .error ⟨2, 0, .UncloseRightBracket⟩
    ∧ tokenizer "[\n[".data ≠ .error ⟨1, 0, .UncloseRightBracket⟩ := by
  exact ⟨by decide, by decide⟩

/-- C6 (amended): resolve of a lone right bracket fails with
UncloseLeftBracket (the spec's UnmatchedClosingBracket) and a lone left
bracket fails with UncloseRightBracket (UnmatchedOpeningBracket); in
general a scan that ends with a non-empty bracket stack fails with
UncloseRightBracket carrying the line and column recorded when the most
recently pushed unmatched open bracket was pushed (the top of the
stack). -/
theorem c6_unmatched_brackets :
    tokenizer "]".data = .error ⟨1, 0, .UncloseLeftBracket⟩
    ∧ tokenizer "[".data = .error ⟨1, 0, .UncloseRightBracket⟩
    ∧ ∀ (src : List Char) (s : ScanState) (org : Nat) (l c : Int)
        (rest : List (Nat × Int × Int)),
        src.foldlM scanChar initScan = .ok s → s.stk = (org, l, c) :: rest →
        tokenizer src = .error ⟨l, c, .UncloseRightBracket⟩ := by
  refine ⟨by decide, by decide, ?_⟩
  intro src s org l c rest hf hs
  simp [tokenizer, hf, hs]

/-- Witness for C6 (amended): applied to the source of two open
brackets, whose scan ends with stack top (1, 1, 0). -/
theorem c6_unmatched_brackets_witness :
    tokenizer "[[".data = .error ⟨1, 0, .UncloseRightBracket⟩ :=
  c6_unmatched_brackets.2.2 "[[".data
    ⟨[.LoopStart 0, .LoopStart 0], [(1, 1, 0), (0, 1, 0)], 1, 0⟩
    1 1 0 [(0, 1, 0)] (by decide) rfl

/-- C8: an Input instruction on an exhausted stream leaves the memory
(and so the current cell) unchanged and continues at the next
instruction, and a failing read halts with the io error. -/
theorem c8_input_eof (inst : List Token) (input : Nat → ReadRes)
    (s : VmState) (h : inst.getD s.pc .Input = .Input) :
    (input s.reads = .eof →
      ∃ s1, vmStep inst input s = .cont s1 ∧ s1.mem = s.mem
        ∧ s1.point = s.point ∧ s1.pc = s.pc + 1 ∧ s1.out = s.out)
    ∧ (input s.reads = .fail → vmStep inst input s = .err .IoErr) := by
  constructor
  · intro hr
    refine ⟨{ s with reads := s.reads + 1, pc := s.pc + 1 },
      ?_, rfl, rfl, rfl, rfl⟩
    unfold vmStep
    rw [h, hr]
  · intro hr
    unfold vmStep
    rw [h, hr]

/-- Witness for C8: a single Input instruction on the empty input
stream, and on a failing stream. -/
theorem c8_input_eof_witness :
    (∃ s1, vmStep [.Input] emptyIn initState = .cont s1
      ∧ s1.mem = initState.mem ∧ s1.point = initState.point
      ∧ s1.pc = initState.pc + 1 ∧ s1.out = initState.out)
    ∧ vmStep [.Input] failIn initState = .err .IoErr :=
  ⟨(c8_input_eof [.Input] emptyIn initState rfl).1 rfl,
   (c8_input_eof [.Input] failIn initState rfl).2 rfl⟩

/-- The folding accumulator stays below its modulus. -/
theorem foldRunAux_val_lt (tokens : List Token) (sel : Token → Option Nat)
    (m len : Nat) (hm : 0 < m) :
    ∀ fuel j x, x < m → (foldRunAux tokens sel m len fuel j x).2 < m := by
  intro fuel
  induction fuel with
  | zero =>
    intro j x hx
    exact hx
  | succ f ih =>
    intro j x hx
    rw [foldRunAux]
    by_cases h : j < len
    · rw [if_pos h]
      cases hs : sel (tokens.getD j .Input) with
      | some d => exact ih (j + 1) ((x + d) % m) (Nat.mod_lt _ hm)
      | none => exact hx
    · rw [if_neg h]
      exact hx

/-- When the folding scan stops strictly inside the buffer, the token
it stopped at does not satisfy the selector (run maximality). -/
theorem foldRunAux_stop (tokens : List Token) (sel : Token → Option Nat)
    (m len : Nat) :
    ∀ fuel j x, len - j ≤ fuel →
      (foldRunAux tokens sel m len fuel j x).1 < len →
      sel (tokens.getD (foldRunAux tokens sel m len fuel j x).1 .Input)
        = none := by
  intro fuel
  induction fuel with
  | zero =>
    intro j x hf hl
    dsimp [foldRunAux] at hl
    exact absurd hl (by omega)
  | succ f ih =>
    intro j x hf hl
    rw [foldRunAux] at hl ⊢
    by_cases h : j < len
    · rw [if_pos h] at hl ⊢
      cases hs : sel (tokens.getD j .Input) with
      | some d =>
        rw [hs] at hl
        exact ih (j + 1) ((x + d) % m) (by omega) hl
      | none =>
        rw [hs] at hl
        exact hs
    · rw [if_neg h] at hl
      dsimp at hl
      exact absurd hl h

/-- A folding scan that immediately sees a non-matching token (or the
end of the buffer) returns its arguments unchanged. -/
theorem foldRun_stop (tokens : List Token) (sel : Token → Option Nat)
    (m len j x : Nat)
    (hstop : j < len → sel (tokens.getD j .Input) = none) :
    foldRun tokens sel m len j x = (j, x) := by
  unfold foldRun
  cases hf : len - j with
  | zero => rfl
  | succ k =>
    rw [foldRunAux]
    have hj : j < len := by omega
    rw [if_pos hj, hstop hj]

/-- The IncrementData selector rejects exactly the other variants. -/
theorem selIncData_none_iff (u : Token) :
    selIncData u = none ↔ tvar u ≠ 0 := by
  cases u <;> simp [selIncData, tvar]

/-- The DecrementData selector rejects exactly the other variants. -/
theorem selDecData_none_iff (u : Token) :
    selDecData u = none ↔ tvar u ≠ 1 := by
  cases u <;> simp [selDecData, tvar]

/-- The IncrementPointer selector rejects exactly the other variants. -/
theorem selIncPtr_none_iff (u : Token) :
    selIncPtr u = none ↔ tvar u ≠ 2 := by
  cases u <;> simp [selIncPtr, tvar]

/-- The DecrementPointer selector rejects exactly the other variants. -/
theorem selDecPtr_none_iff (u : Token) :
    selDecPtr u = none ↔ tvar u ≠ 3 := by
  cases u <;> simp [selDecPtr, tvar]

/-- Truncation to the written region preserves its entries, its length,
and turns pending placeholders into LoopStart entries. -/
theorem take_stable (tokens : List Token) (w : Nat) (stk : List Nat)
    (hw : w ≤ tokens.length)
    (hsw : ∀ i ∈ stk, i < w)
    (hpl : ∀ i ∈ stk, tokens.get? i = some (.LoopStart 0)) :
    (∀ i, i < w → i ∉ stk → (tokens.take w).get? i = tokens.get? i)
    ∧ w ≤ (tokens.take w).length
    ∧ (∀ i ∈ stk, ∃ k, (tokens.take w).get? i = some (.LoopStart k)) := by
  refine ⟨fun i hi _ => List.get?_take hi, by simp; omega, ?_⟩
  intro i hi
  exact ⟨0, by rw [List.get?_take (hsw i hi)]; exact hpl i hi⟩

/-- Stability of the optimizer loop: on a successful run, every
already-written position outside the pending stack keeps its value in
the output, the output extends past the write cursor, and every
pending stack position ends up holding some LoopStart. -/
theorem optLoop_stable (len : Nat) :
    ∀ fuel tokens obs w stk y,
    optLoopAux len fuel tokens obs w stk = .ok y →
    OptInv1 len tokens obs w stk →
    (∀ i, i < w → i ∉ stk → y.get? i = tokens.get? i)
    ∧ w ≤ y.length
    ∧ (∀ i ∈ stk, ∃ k, y.get? i = some (.LoopStart k)) := by
  intro fuel
  induction fuel with
  | zero =>
    intro tokens obs w stk y hok hinv
    obtain ⟨hl, hwo, hol, hpw, hsw, hpl⟩ := hinv
    rw [optLoopAux] at hok
    by_cases hobs : obs < len
    · rw [if_pos hobs] at hok
      exact OptResult.noConfusion hok
    · rw [if_neg hobs] at hok
      cases hok
      exact take_stable tokens w stk (by omega) hsw hpl
  | succ f ih =>
    intro tokens obs w stk y hok hinv
    obtain ⟨hl, hwo, hol, hpw, hsw, hpl⟩ := hinv
    by_cases hobs : obs < len
    case neg =>
      rw [optLoopAux_succ, if_neg hobs] at hok
      cases hok
      exact take_stable tokens w stk (by omega) hsw hpl
    rw [optLoopAux_succ, if_pos hobs] at hok
    have hwnotstk : w ∉ stk := fun hmem => absurd (hsw w hmem) (lt_irrefl w)
    cases hts : tokens.getD obs .Input with
    | IncrementData x =>
      rw [hts] at hok
      dsimp only at hok
      rcases hfr : foldRun tokens selIncData 256 len (obs + 1) (x % 256)
        with ⟨j, yv⟩
      rw [hfr] at hok
      have hfr1 : foldRunAux tokens selIncData 256 len (len - (obs + 1))
          (obs + 1) (x % 256) = (j, yv) := hfr
      have hge : obs + 1 ≤ j := by
        have := foldRunAux_ge tokens selIncData 256 len (len - (obs + 1))
          (obs + 1) (x % 256)
        rw [hfr1] at this
        exact this
      have hle : j ≤ len := by
        have := foldRunAux_le tokens selIncData 256 len (len - (obs + 1))
          (obs + 1) (x % 256) (by omega)
        rw [hfr1] at this
        exact this
      have hok2 : optLoopAux len f (tokens.set w (.IncrementData yv)) j
          (w + 1) stk = .ok y := hok
      obtain ⟨hs1, hs2, hs3⟩ := ih (tokens.set w (.IncrementData yv)) j
        (w + 1) stk y hok2
        ⟨by simpa using hl, by omega, hle, hpw,
          fun i hi => by have := hsw i hi; omega,
          fun i hi => by
            rw [List.get?_set_ne _ _
              (show ¬ w = i by have := hsw i hi; omega)]
            exact hpl i hi⟩
      refine ⟨?_, by omega, hs3⟩
      intro i hi hmem
      rw [hs1 i (by omega) hmem,
        List.get?_set_ne _ _ (show ¬ w = i by omega)]
    | DecrementData x =>
      rw [hts] at hok
      dsimp only at hok
      rcases hfr : foldRun tokens selDecData 256 len (obs + 1) (x % 256)
        with ⟨j, yv⟩
      rw [hfr] at hok
      have hfr1 : foldRunAux tokens selDecData 256 len (len - (obs + 1))
          (obs + 1) (x % 256) = (j, yv) := hfr
      have hge : obs + 1 ≤ j := by
        have := foldRunAux_ge tokens selDecData 256 len (len - (obs + 1))
          (obs + 1) (x % 256)
        rw [hfr1] at this
        exact this
      have hle : j ≤ len := by
        have := foldRunAux_le tokens selDecData 256 len (len - (obs + 1))
          (obs + 1) (x % 256) (by omega)
        rw [hfr1] at this
        exact this
      have hok2 : optLoopAux len f (tokens.set w (.DecrementData yv)) j
          (w + 1) stk = .ok y := hok
      obtain ⟨hs1, hs2, hs3⟩ := ih (tokens.set w (.DecrementData yv)) j
        (w + 1) stk y hok2
        ⟨by simpa using hl, by omega, hle, hpw,
          fun i hi => by have := hsw i hi; omega,
          fun i hi => by
            rw [List.get?_set_ne _ _
              (show ¬ w = i by have := hsw i hi; omega)]
            exact hpl i hi⟩
      refine ⟨?_, by omega, hs3⟩
      intro i hi hmem
      rw [hs1 i (by omega) hmem,
        List.get?_set_ne _ _ (show ¬ w = i by omega)]
    | IncrementPointer x =>
      rw [hts] at hok
      dsimp only at hok
      rcases hfr : foldRun tokens selIncPtr (2 ^ 64) len (obs + 1)
        (x % 2 ^ 64) with ⟨j, yv⟩
      rw [hfr] at hok
      have hfr1 : foldRunAux tokens selIncPtr (2 ^ 64) len
          (len - (obs + 1)) (obs + 1) (x % 2 ^ 64) = (j, yv) := hfr
      have hge : obs + 1 ≤ j := by
        have := foldRunAux_ge tokens selIncPtr (2 ^ 64) len
          (len - (obs + 1)) (obs + 1) (x % 2 ^ 64)
        rw [hfr1] at this
        exact this
      have hle : j ≤ len := by
        have := foldRunAux_le tokens selIncPtr (2 ^ 64) len
          (len - (obs + 1)) (obs + 1) (x % 2 ^ 64) (by omega)
        rw [hfr1] at this
        exact this
      have hok2 : optLoopAux len f (tokens.set w (.IncrementPointer yv)) j
          (w + 1) stk = .ok y := hok
      obtain ⟨hs1, hs2, hs3⟩ := ih (tokens.set w (.IncrementPointer yv)) j
        (w + 1) stk y hok2
        ⟨by simpa using hl, by omega, hle, hpw,
          fun i hi => by have := hsw i hi; omega,
          fun i hi => by
            rw [List.get?_set_ne _ _
              (show ¬ w = i by have := hsw i hi; omega)]
            exact hpl i hi⟩
      refine ⟨?_, by omega, hs3⟩
      intro i hi hmem
      rw [hs1 i (by omega) hmem,
        List.get?_set_ne _ _ (show ¬ w = i by omega)]
    | DecrementPointer x =>
      rw [hts] at hok
      dsimp only at hok
      rcases hfr : foldRun tokens selDecPtr (2 ^ 64) len (obs + 1)
        (x % 2 ^ 64) with ⟨j, yv⟩
      rw [hfr] at hok
      have hfr1 : foldRunAux tokens selDecPtr (2 ^ 64) len
          (len - (obs + 1)) (obs + 1) (x % 2 ^ 64) = (j, yv) := hfr
      have hge : obs + 1 ≤ j := by
        have := foldRunAux_ge tokens selDecPtr (2 ^ 64) len
          (len - (obs + 1)) (obs + 1) (x % 2 ^ 64)
        rw [hfr1] at this
        exact this
      have hle : j ≤ len := by
        have := foldRunAux_le tokens selDecPtr (2 ^ 64) len
          (len - (obs + 1)) (obs + 1) (x % 2 ^ 64) (by omega)
        rw [hfr1] at this
        exact this
      have hok2 : optLoopAux len f (tokens.set w (.DecrementPointer yv)) j
          (w + 1) stk = .ok y := hok
      obtain ⟨hs1, hs2, hs3⟩ := ih (tokens.set w (.DecrementPointer yv)) j
        (w + 1) stk y hok2
        ⟨by simpa using hl, by omega, hle, hpw,
          fun i hi => by have := hsw i hi; omega,
          fun i hi => by
            rw [List.get?_set_ne _ _
              (show ¬ w = i by have := hsw i hi; omega)]
            exact hpl i hi⟩
      refine ⟨?_, by omega, hs3⟩
      intro i hi hmem
      rw [hs1 i (by omega) hmem,
        List.get?_set_ne _ _ (show ¬ w = i by omega)]
    | Input =>
      rw [hts] at hok
      dsimp only at hok
      have hok2 : optLoopAux len f (tokens.set w .Input) (obs + 1)
          (w + 1) stk = .ok y := hok
      obtain ⟨hs1, hs2, hs3⟩ := ih (tokens.set w .Input) (obs + 1)
        (w + 1) stk y hok2
        ⟨by simpa using hl, by omega, by omega, hpw,
          fun i hi => by have := hsw i hi; omega,
          fun i hi => by
            rw [List.get?_set_ne _ _
              (show ¬ w = i by have := hsw i hi; omega)]
            exact hpl i hi⟩
      refine ⟨?_, by omega, hs3⟩
      intro i hi hmem
      rw [hs1 i (by omega) hmem,
        List.get?_set_ne _ _ (show ¬ w = i by omega)]
    | Output =>
      rw [hts] at hok
      dsimp only at hok
      have hok2 : optLoopAux len f (tokens.set w .Output) (obs + 1)
          (w + 1) stk = .ok y := hok
      obtain ⟨hs1, hs2, hs3⟩ := ih (tokens.set w .Output) (obs + 1)
        (w + 1) stk y hok2
        ⟨by simpa using hl, by omega, by omega, hpw,
          fun i hi => by have := hsw i hi; omega,
          fun i hi => by
            rw [List.get?_set_ne _ _
              (show ¬ w = i by have := hsw i hi; omega)]
            exact hpl i hi⟩
      refine ⟨?_, by omega, hs3⟩
      intro i hi hmem
      rw [hs1 i (by omega) hmem,
        List.get?_set_ne _ _ (show ¬ w = i by omega)]
    | LoopStart x =>
      rw [hts] at hok
      dsimp only at hok
      have hok2 : optLoopAux len f (tokens.set w (.LoopStart 0)) (obs + 1)
          (w + 1) (w :: stk) = .ok y := hok
      obtain ⟨hs1, hs2, hs3⟩ := ih (tokens.set w (.LoopStart 0)) (obs + 1)
        (w + 1) (w :: stk) y hok2
        ⟨by simpa using hl, by omega, by omega,
          List.pairwise_cons.mpr ⟨fun b hb => hsw b hb, hpw⟩,
          fun i hi => by
            rcases List.mem_cons.mp hi with rfl | hi
            · omega
            · have := hsw i hi; omega,
          fun i hi => by
            rcases List.mem_cons.mp hi with rfl | hi
            · exact List.get?_set_eq_of_lt _ (by omega)
            · rw [List.get?_set_ne _ _
                (show ¬ w = i by have := hsw i hi; omega)]
              exact hpl i hi⟩
      refine ⟨?_, by omega, ?_⟩
      · intro i hi hmem
        rw [hs1 i (by omega)
          (fun hm2 => hmem (by
            rcases List.mem_cons.mp hm2 with rfl | hm3
            · exact absurd hi (lt_irrefl i)
            · exact hm3)),
          List.get?_set_ne _ _ (show ¬ w = i by omega)]
      · intro i hi
        exact hs3 i (List.mem_cons_of_mem _ hi)
    | LoopEnd x =>
      rw [hts] at hok
      dsimp only at hok
      cases hstk2 : stk with
      | nil =>
        rw [hstk2] at hok
        exact OptResult.noConfusion hok
      | cons org rest =>
        subst hstk2
        dsimp only at hok
        have horgstk : org ∈ org :: rest := List.mem_cons_self _ _
        have horgw : org < w := hsw org horgstk
        have hporg : tokens.get? org = some (.LoopStart 0) := hpl org horgstk
        rw [if_pos hporg] at hok
        have hrest : ∀ i ∈ rest, i < org :=
          fun i hi => (List.pairwise_cons.mp hpw).1 i hi
        have hpwrest : rest.Pairwise (· > ·) :=
          (List.pairwise_cons.mp hpw).2
        have hok2 : optLoopAux len f
            ((tokens.set org (.LoopStart (w % 2 ^ 32))).set w
              (.LoopEnd (org % 2 ^ 32))) (obs + 1) (w + 1) rest
            = .ok y := hok
        have hg2 : ∀ i, i ≠ w → i ≠ org →
            ((tokens.set org (.LoopStart (w % 2 ^ 32))).set w
              (.LoopEnd (org % 2 ^ 32))).get? i = tokens.get? i := by
          intro i h1 h2
          rw [List.get?_set_ne _ _ (fun hh => h1 hh.symm),
            List.get?_set_ne _ _ (fun hh => h2 hh.symm)]
        have hgorg : ((tokens.set org (.LoopStart (w % 2 ^ 32))).set w
            (.LoopEnd (org % 2 ^ 32))).get? org
            = some (.LoopStart (w % 2 ^ 32)) := by
          rw [List.get?_set_ne _ _ (show ¬ w = org by omega)]
          exact List.get?_set_eq_of_lt _ (by omega)
        obtain ⟨hs1, hs2, hs3⟩ := ih _ (obs + 1) (w + 1) rest y hok2
          ⟨by simpa using hl, by omega, by omega, hpwrest,
            fun i hi => by have := hrest i hi; omega,
            fun i hi => by
              rw [hg2 i (by have := hrest i hi; omega)
                (by have := hrest i hi; omega)]
              exact hpl i (List.mem_cons_of_mem _ hi)⟩
        refine ⟨?_, by omega, ?_⟩
        · intro i hi hmem
          have hio : i ≠ org := fun hh => hmem (hh ▸ horgstk)
          rw [hs1 i (by omega)
            (fun hm2 => hmem (List.mem_cons_of_mem _ hm2)),
            hg2 i (by omega) hio]
        · intro i hi
          rcases List.mem_cons.mp hi with rfl | hi2
          · refine ⟨w % 2 ^ 32, ?_⟩
            rw [hs1 i (by omega)
              (fun hm2 => absurd (hrest i hm2) (lt_irrefl i))]
            exact hgorg
          · exact hs3 i hi2

/-- The basic invariant is preserved by writing any token at the write
cursor and advancing both cursors. -/
theorem OptInv1_write (len : Nat) (tokens : List Token) (obs w j : Nat)
    (stk : List Nat) (t1 : Token) (hinv : OptInv1 len tokens obs w stk)
    (hobs : obs < len) (hj1 : obs < j) (hj2 : j ≤ len) :
    OptInv1 len (tokens.set w t1) j (w + 1) stk := by
  obtain ⟨hl, hwo, hol, hpw, hsw, hpl⟩ := hinv
  refine ⟨by simpa using hl, by omega, hj2, hpw,
    fun i hi => by have := hsw i hi; omega, ?_⟩
  intro i hi
  rw [List.get?_set_ne _ _ (show ¬ w = i by have := hsw i hi; omega)]
  exact hpl i hi

/-- The basic invariant is preserved by emitting a placeholder
LoopStart and pushing the write position. -/
theorem OptInv1_loopstart (len : Nat) (tokens : List Token) (obs w : Nat)
    (stk : List Nat) (hinv : OptInv1 len tokens obs w stk)
    (hobs : obs < len) :
    OptInv1 len (tokens.set w (.LoopStart 0)) (obs + 1) (w + 1)
      (w :: stk) := by
  obtain ⟨hl, hwo, hol, hpw, hsw, hpl⟩ := hinv
  refine ⟨by simpa using hl, by omega, by omega,
    List.pairwise_cons.mpr ⟨fun b hb => hsw b hb, hpw⟩, ?_, ?_⟩
  · intro i hi
    rcases List.mem_cons.mp hi with rfl | hi
    · omega
    · have := hsw i hi
      omega
  · intro i hi
    rcases List.mem_cons.mp hi with rfl | hi
    · exact List.get?_set_eq_of_lt _ (by omega)
    · rw [List.get?_set_ne _ _ (show ¬ w = i by have := hsw i hi; omega)]
      exact hpl i hi

/-- The basic invariant is preserved by the LoopEnd step: patch the
popped placeholder with a LoopStart and emit a token at the write
cursor. -/
theorem OptInv1_loopend (len : Nat) (tokens : List Token) (obs w org : Nat)
    (rest : List Nat) (a : Nat) (b : Token)
    (hinv : OptInv1 len tokens obs w (org :: rest)) (hobs : obs < len) :
    OptInv1 len ((tokens.set org (.LoopStart a)).set w b) (obs + 1)
      (w + 1) rest := by
  obtain ⟨hl, hwo, hol, hpw, hsw, hpl⟩ := hinv
  have horgw : org < w := hsw org (List.mem_cons_self _ _)
  have hrest : ∀ i ∈ rest, i < org :=
    fun i hi => (List.pairwise_cons.mp hpw).1 i hi
  refine ⟨by simpa using hl, by omega, by omega,
    (List.pairwise_cons.mp hpw).2,
    fun i hi => by have := hrest i hi; omega, ?_⟩
  intro i hi
  rw [List.get?_set_ne _ _ (show ¬ w = i by have := hrest i hi; omega),
    List.get?_set_ne _ _ (show ¬ org = i by have := hrest i hi; omega)]
  exact hpl i (List.mem_cons_of_mem _ hi)

/-- On a successful run taking at least one step, the token written at
the current write position has the same variant as the token under the
read cursor; when the read cursor is already exhausted the output has
exactly the written length. -/
theorem optLoop_head (len f : Nat) (tokens : List Token) (obs w : Nat)
    (stk : List Nat) (y : List Token)
    (hok : optLoopAux len (f + 1) tokens obs w stk = .ok y)
    (hinv : OptInv1 len tokens obs w stk) :
    (obs < len → ∃ v, y.get? w = some v
      ∧ tvar v = tvar (tokens.getD obs .Input))
    ∧ (¬ obs < len → y.length = w) := by
  obtain ⟨hl, hwo, hol, hpw, hsw, hpl⟩ := hinv
  by_cases hobs : obs < len
  case neg =>
    rw [optLoopAux_succ, if_neg hobs] at hok
    cases hok
    refine ⟨fun hc => absurd hc hobs, fun _ => ?_⟩
    simp
    omega
  rw [optLoopAux_succ, if_pos hobs] at hok
  refine ⟨fun _ => ?_, fun hc => absurd hobs hc⟩
  have hwnotstk : w ∉ stk := fun hmem => absurd (hsw w hmem) (lt_irrefl w)
  have hwlen : w < len := by omega
  cases hts : tokens.getD obs .Input with
  | IncrementData x =>
    rw [hts] at hok
    dsimp only at hok
    rcases hfr : foldRun tokens selIncData 256 len (obs + 1) (x % 256)
      with ⟨j, yv⟩
    rw [hfr] at hok
    have hfr1 : foldRunAux tokens selIncData 256 len (len - (obs + 1))
        (obs + 1) (x % 256) = (j, yv) := hfr
    have hge : obs + 1 ≤ j := by
      have := foldRunAux_ge tokens selIncData 256 len (len - (obs + 1))
        (obs + 1) (x % 256)
      rw [hfr1] at this
      exact this
    have hle : j ≤ len := by
      have := foldRunAux_le tokens selIncData 256 len (len - (obs + 1))
        (obs + 1) (x % 256) (by omega)
      rw [hfr1] at this
      exact this
    have hok2 : optLoopAux len f (tokens.set w (.IncrementData yv)) j
        (w + 1) stk = .ok y := hok
    obtain ⟨hs1, _, _⟩ := optLoop_stable len f _ j (w + 1) stk y hok2
      (OptInv1_write len tokens obs w j stk _
        ⟨hl, hwo, hol, hpw, hsw, hpl⟩ hobs (by omega) hle)
    refine ⟨.IncrementData yv, ?_, rfl⟩
    rw [hs1 w (by omega) hwnotstk]
    exact List.get?_set_eq_of_lt _ (by omega)
  | DecrementData x =>
    rw [hts] at hok
    dsimp only at hok
    rcases hfr : foldRun tokens selDecData 256 len (obs + 1) (x % 256)
      with ⟨j, yv⟩
    rw [hfr] at hok
    have hfr1 : foldRunAux tokens selDecData 256 len (len - (obs + 1))
        (obs + 1) (x % 256) = (j, yv) := hfr
    have hge : obs + 1 ≤ j := by
      have := foldRunAux_ge tokens selDecData 256 len (len - (obs + 1))
        (obs + 1) (x % 256)
      rw [hfr1] at this
      exact this
    have hle : j ≤ len := by
      have := foldRunAux_le tokens selDecData 256 len (len - (obs + 1))
        (obs + 1) (x % 256) (by omega)
      rw [hfr1] at this
      exact this
    have hok2 : optLoopAux len f (tokens.set w (.DecrementData yv)) j
        (w + 1) stk = .ok y := hok
    obtain ⟨hs1, _, _⟩ := optLoop_stable len f _ j (w + 1) stk y hok2
      (OptInv1_write len tokens obs w j stk _
        ⟨hl, hwo, hol, hpw, hsw, hpl⟩ hobs (by omega) hle)
    refine ⟨.DecrementData yv, ?_, rfl⟩
    rw [hs1 w (by omega) hwnotstk]
    exact List.get?_set_eq_of_lt _ (by omega)
  | IncrementPointer x =>
    rw [hts] at hok
    dsimp only at hok
    rcases hfr : foldRun tokens selIncPtr (2 ^ 64) len (obs + 1)
      (x % 2 ^ 64) with ⟨j, yv⟩
    rw [hfr] at hok
    have hfr1 : foldRunAux tokens selIncPtr (2 ^ 64) len (len - (obs + 1))
        (obs + 1) (x % 2 ^ 64) = (j, yv) := hfr
    have hge : obs + 1 ≤ j := by
      have := foldRunAux_ge tokens selIncPtr (2 ^ 64) len (len - (obs + 1))
        (obs + 1) (x % 2 ^ 64)
      rw [hfr1] at this
      exact this
    have hle : j ≤ len := by
      have := foldRunAux_le tokens selIncPtr (2 ^ 64) len (len - (obs + 1))
        (obs + 1) (x % 2 ^ 64) (by omega)
      rw [hfr1] at this
      exact this
    have hok2 : optLoopAux len f (tokens.set w (.IncrementPointer yv)) j
        (w + 1) stk = .ok y := hok
    obtain ⟨hs1, _, _⟩ := optLoop_stable len f _ j (w + 1) stk y hok2
      (OptInv1_write len tokens obs w j stk _
        ⟨hl, hwo, hol, hpw, hsw, hpl⟩ hobs (by omega) hle)
    refine ⟨.IncrementPointer yv, ?_, rfl⟩
    rw [hs1 w (by omega) hwnotstk]
    exact List.get?_set_eq_of_lt _ (by omega)
  | DecrementPointer x =>
    rw [hts] at hok
    dsimp only at hok
    rcases hfr : foldRun tokens selDecPtr (2 ^ 64) len (obs + 1)
      (x % 2 ^ 64) with ⟨j, yv⟩
    rw [hfr] at hok
    have hfr1 : foldRunAux tokens selDecPtr (2 ^ 64) len (len - (obs + 1))
        (obs + 1) (x % 2 ^ 64) = (j, yv) := hfr
    have hge : obs + 1 ≤ j := by
      have := foldRunAux_ge tokens selDecPtr (2 ^ 64) len (len - (obs + 1))
        (obs + 1) (x % 2 ^ 64)
      rw [hfr1] at this
      exact this
    have hle : j ≤ len := by
      have := foldRunAux_le tokens selDecPtr (2 ^ 64) len (len - (obs + 1))
        (obs + 1) (x % 2 ^ 64) (by omega)
      rw [hfr1] at this
      exact this
    have hok2 : optLoopAux len f (tokens.set w (.DecrementPointer yv)) j
        (w + 1) stk = .ok y := hok
    obtain ⟨hs1, _, _⟩ := optLoop_stable len f _ j (w + 1) stk y hok2
      (OptInv1_write len tokens obs w j stk _
        ⟨hl, hwo, hol, hpw, hsw, hpl⟩ hobs (by omega) hle)
    refine ⟨.DecrementPointer yv, ?_, rfl⟩
    rw [hs1 w (by omega) hwnotstk]
    exact List.get?_set_eq_of_lt _ (by omega)
  | Input =>
    rw [hts] at hok
    dsimp only at hok
    have hok2 : optLoopAux len f (tokens.set w .Input) (obs + 1)
        (w + 1) stk = .ok y := hok
    obtain ⟨hs1, _, _⟩ := optLoop_stable len f _ (obs + 1) (w + 1) stk y hok2
      (OptInv1_write len tokens obs w (obs + 1) stk _
        ⟨hl, hwo, hol, hpw, hsw, hpl⟩ hobs (by omega) (by omega))
    refine ⟨.Input, ?_, rfl⟩
    rw [hs1 w (by omega) hwnotstk]
    exact List.get?_set_eq_of_lt _ (by omega)
  | Output =>
    rw [hts] at hok
    dsimp only at hok
    have hok2 : optLoopAux len f (tokens.set w .Output) (obs + 1)
        (w + 1) stk = .ok y := hok
    obtain ⟨hs1, _, _⟩ := optLoop_stable len f _ (obs + 1) (w + 1) stk y hok2
      (OptInv1_write len tokens obs w (obs + 1) stk _
        ⟨hl, hwo, hol, hpw, hsw, hpl⟩ hobs (by omega) (by omega))
    refine ⟨.Output, ?_, rfl⟩
    rw [hs1 w (by omega) hwnotstk]
    exact List.get?_set_eq_of_lt _ (by omega)
  | LoopStart x =>
    rw [hts] at hok
    dsimp only at hok
    have hok2 : optLoopAux len f (tokens.set w (.LoopStart 0)) (obs + 1)
        (w + 1) (w :: stk) = .ok y := hok
    obtain ⟨_, _, hs3⟩ := optLoop_stable len f _ (obs + 1) (w + 1)
      (w :: stk) y hok2
      (OptInv1_loopstart len tokens obs w stk
        ⟨hl, hwo, hol, hpw, hsw, hpl⟩ hobs)
    obtain ⟨k, hk⟩ := hs3 w (List.mem_cons_self _ _)
    exact ⟨.LoopStart k, hk, rfl⟩
  | LoopEnd x =>
    rw [hts] at hok
    dsimp only at hok
    cases hstk2 : stk with
    | nil =>
      rw [hstk2] at hok
      exact OptResult.noConfusion hok
    | cons org rest =>
      subst hstk2
      dsimp only at hok
      have horgw : org < w := hsw org (List.mem_cons_self _ _)
      have hporg : tokens.get? org = some (.LoopStart 0) :=
        hpl org (List.mem_cons_self _ _)
      rw [if_pos hporg] at hok
      have hrest : ∀ i ∈ rest, i < org :=
        fun i hi => (List.pairwise_cons.mp hpw).1 i hi
      have hok2 : optLoopAux len f
          ((tokens.set org (.LoopStart (w % 2 ^ 32))).set w
            (.LoopEnd (org % 2 ^ 32))) (obs + 1) (w + 1) rest
          = .ok y := hok
      obtain ⟨hs1, _, _⟩ := optLoop_stable len f _ (obs + 1) (w + 1) rest y
        hok2
        (OptInv1_loopend len tokens obs w org rest _ _
          ⟨hl, hwo, hol, hpw, hsw, hpl⟩ hobs)
      refine ⟨.LoopEnd (org % 2 ^ 32), ?_, rfl⟩
      rw [hs1 w (by omega) (fun hm => absurd (hrest w hm) (by omega))]
      exact List.get?_set_eq_of_lt _ (by simp; omega)

/-- Second-pass tracking: if the optimizer loop completes successfully
producing y, then running the loop on a buffer that agrees with y
except for pending placeholder positions, starting at the aligned
write position with the same pending stack, reproduces y exactly.
Instantiated at the initial state this says optimize is idempotent. -/
theorem optLoop_pass2 (len : Nat) :
    ∀ fuel1 tokens obs w stk y fuel2 t2,
    optLoopAux len fuel1 tokens obs w stk = .ok y →
    OptInv1 len tokens obs w stk →
    t2.length = y.length →
    (∀ i ∈ stk, t2.get? i = some (.LoopStart 0)) →
    (∀ i, i ∉ stk → t2.get? i = y.get? i) →
    y.length - w ≤ fuel2 →
    optLoopAux y.length fuel2 t2 w w stk = .ok y := by
  intro fuel1
  induction fuel1 with
  | zero =>
    intro tokens obs w stk y fuel2 t2 hok hinv ht2len hstkpl hne hf2
    obtain ⟨hl, hwo, hol, hpw, hsw, hpl⟩ := hinv
    rw [optLoopAux] at hok
    by_cases hobs : obs < len
    · rw [if_pos hobs] at hok
      exact OptResult.noConfusion hok
    · rw [if_neg hobs] at hok
      cases hok
      have hyl : (tokens.take w).length = w := by
        simp
        omega
      rw [optLoopAux_done _ _ _ _ _ _ (by omega)]
      congr 1
      have ht2 : t2.take w = t2 := by
        rw [show w = t2.length by omega]
        exact List.take_length t2
      rw [ht2]
      refine List.ext_get? ?_
      intro n
      by_cases hmem : n ∈ stk
      · rw [hstkpl n hmem, List.get?_take (hsw n hmem), hpl n hmem]
      · exact hne n hmem
  | succ f ih =>
    intro tokens obs w stk y fuel2 t2 hok hinv ht2len hstkpl hne hf2
    obtain ⟨hl, hwo, hol, hpw, hsw, hpl⟩ := hinv
    by_cases hobs : obs < len
    case neg =>
      rw [optLoopAux_succ, if_neg hobs] at hok
      cases hok
      have hyl : (tokens.take w).length = w := by
        simp
        omega
      rw [optLoopAux_done _ _ _ _ _ _ (by omega)]
      congr 1
      have ht2 : t2.take w = t2 := by
        rw [show w = t2.length by omega]
        exact List.take_length t2
      rw [ht2]
      refine List.ext_get? ?_
      intro n
      by_cases hmem : n ∈ stk
      · rw [hstkpl n hmem, List.get?_take (hsw n hmem), hpl n hmem]
      · exact hne n hmem
    rw [optLoopAux_succ, if_pos hobs] at hok
    have hwnotstk : w ∉ stk := fun hmem => absurd (hsw w hmem) (lt_irrefl w)
    have hwlen : w < len := by omega
    cases hts : tokens.getD obs .Input with
    | IncrementData x =>
      rw [hts] at hok
      dsimp only at hok
      rcases hfr : foldRun tokens selIncData 256 len (obs + 1) (x % 256)
        with ⟨j, yv⟩
      rw [hfr] at hok
      have hfr1 : foldRunAux tokens selIncData 256 len (len - (obs + 1))
          (obs + 1) (x % 256) = (j, yv) := hfr
      have hge : obs + 1 ≤ j := by
        have := foldRunAux_ge tokens selIncData 256 len (len - (obs + 1))
          (obs + 1) (x % 256)
        rw [hfr1] at this
        exact this
      have hle : j ≤ len := by
        have := foldRunAux_le tokens selIncData 256 len (len - (obs + 1))
          (obs + 1) (x % 256) (by omega)
        rw [hfr1] at this
        exact this
      have hvlt : yv < 256 := by
        have := foldRunAux_val_lt tokens selIncData 256 len (by norm_num)
          (len - (obs + 1)) (obs + 1) (x % 256) (by omega)
        rw [hfr1] at this
        exact this
      have hok2 : optLoopAux len f (tokens.set w (.IncrementData yv)) j
          (w + 1) stk = .ok y := hok
      have hinv2 : OptInv1 len (tokens.set w (.IncrementData yv)) j
          (w + 1) stk :=
        OptInv1_write len tokens obs w j stk _
          ⟨hl, hwo, hol, hpw, hsw, hpl⟩ hobs (by omega) hle
      obtain ⟨hs1, hs2, _⟩ := optLoop_stable len f _ j (w + 1) stk y
        hok2 hinv2
      have hyw : y.get? w = some (.IncrementData yv) := by
        rw [hs1 w (by omega) hwnotstk]
        exact List.get?_set_eq_of_lt _ (by omega)
      have hwy : w < y.length := by omega
      have ht2w : t2.getD w .Input = .IncrementData yv := by
        show (t2.get? w).getD .Input = _
        rw [hne w hwnotstk, hyw]
        rfl
      have hstop2 : w + 1 < y.length →
          selIncData (t2.getD (w + 1) .Input) = none := by
        intro hlt
        by_cases hjl : j < len
        · have hmax : selIncData (tokens.getD j .Input) = none := by
            have := foldRunAux_stop tokens selIncData 256 len
              (len - (obs + 1)) (obs + 1) (x % 256) (by omega)
              (by rw [hfr1]; exact hjl)
            rw [hfr1] at this
            exact this
          cases f with
          | zero =>
            rw [optLoopAux, if_pos hjl] at hok2
            exact OptResult.noConfusion hok2
          | succ f3 =>
            obtain ⟨hhead, _⟩ := optLoop_head len f3 _ j (w + 1) stk y
              hok2 hinv2
            obtain ⟨v, hv, hvv⟩ := hhead hjl
            have hgj : (tokens.set w (.IncrementData yv)).getD j .Input
                = tokens.getD j .Input := by
              show ((tokens.set w _).get? j).getD .Input = _
              rw [List.get?_set_ne _ _ (show ¬ w = j by omega)]
              rfl
            rw [hgj] at hvv
            have ht2n : t2.getD (w + 1) .Input = v := by
              show (t2.get? (w + 1)).getD .Input = v
              rw [hne (w + 1)
                (fun hm => absurd (hsw (w + 1) hm) (by omega)), hv]
              rfl
            rw [ht2n, selIncData_none_iff]
            rw [selIncData_none_iff] at hmax
            omega
        · have hy1 : y.length = w + 1 := by
            cases f with
            | zero =>
              rw [optLoopAux, if_neg hjl] at hok2
              cases hok2
              simp
              omega
            | succ f3 =>
              exact (optLoop_head len f3 _ j (w + 1) stk y hok2 hinv2).2 hjl
          omega
      rcases fuel2 with _ | f2
      · exact absurd hf2 (by omega)
      rw [optLoopAux_succ, if_pos hwy, ht2w]
      dsimp only
      rw [foldRun_stop t2 selIncData 256 y.length (w + 1) (yv % 256) hstop2]
      rw [show yv % 256 = yv from Nat.mod_eq_of_lt hvlt]
      refine ih (tokens.set w (.IncrementData yv)) j (w + 1) stk y f2
        (t2.set w (.IncrementData yv)) hok2 hinv2 (by simpa using ht2len)
        ?_ ?_ (by omega)
      · intro i hi
        rw [List.get?_set_ne _ _ (show ¬ w = i by have := hsw i hi; omega)]
        exact hstkpl i hi
      · intro i hi
        by_cases hiw : i = w
        · subst hiw
          rw [List.get?_set_eq_of_lt _ (by omega), hyw]
        · rw [List.get?_set_ne _ _ (fun hh => hiw hh.symm)]
          exact hne i hi
    | DecrementData x =>
      rw [hts] at hok
      dsimp only at hok
      rcases hfr : foldRun tokens selDecData 256 len (obs + 1) (x % 256)
        with ⟨j, yv⟩
      rw [hfr] at hok
      have hfr1 : foldRunAux tokens selDecData 256 len (len - (obs + 1))
          (obs + 1) (x % 256) = (j, yv) := hfr
      have hge : obs + 1 ≤ j := by
        have := foldRunAux_ge tokens selDecData 256 len (len - (obs + 1))
          (obs + 1) (x % 256)
        rw [hfr1] at this
        exact this
      have hle : j ≤ len := by
        have := foldRunAux_le tokens selDecData 256 len (len - (obs + 1))
          (obs + 1) (x % 256) (by omega)
        rw [hfr1] at this
        exact this
      have hvlt : yv < 256 := by
        have := foldRunAux_val_lt tokens selDecData 256 len (by norm_num)
          (len - (obs + 1)) (obs + 1) (x % 256) (by omega)
        rw [hfr1] at this
        exact this
      have hok2 : optLoopAux len f (tokens.set w (.DecrementData yv)) j
          (w + 1) stk = .ok y := hok
      have hinv2 : OptInv1 len (tokens.set w (.DecrementData yv)) j
          (w + 1) stk :=
        OptInv1_write len tokens obs w j stk _
          ⟨hl, hwo, hol, hpw, hsw, hpl⟩ hobs (by omega) hle
      obtain ⟨hs1, hs2, _⟩ := optLoop_stable len f _ j (w + 1) stk y
        hok2 hinv2
      have hyw : y.get? w = some (.DecrementData yv) := by
        rw [hs1 w (by omega) hwnotstk]
        exact List.get?_set_eq_of_lt _ (by omega)
      have hwy : w < y.length := by omega
      have ht2w : t2.getD w .Input = .DecrementData yv := by
        show (t2.get? w).getD .Input = _
        rw [hne w hwnotstk, hyw]
        rfl
      have hstop2 : w + 1 < y.length →
          selDecData (t2.getD (w + 1) .Input) = none := by
        intro hlt
        by_cases hjl : j < len
        · have hmax : selDecData (tokens.getD j .Input) = none := by
            have := foldRunAux_stop tokens selDecData 256 len
              (len - (obs + 1)) (obs + 1) (x % 256) (by omega)
              (by rw [hfr1]; exact hjl)
            rw [hfr1] at this
            exact this
          cases f with
          | zero =>
            rw [optLoopAux, if_pos hjl] at hok2
            exact OptResult.noConfusion hok2
          | succ f3 =>
            obtain ⟨hhead, _⟩ := optLoop_head len f3 _ j (w + 1) stk y
              hok2 hinv2
            obtain ⟨v, hv, hvv⟩ := hhead hjl
            have hgj : (tokens.set w (.DecrementData yv)).getD j .Input
                = tokens.getD j .Input := by
              show ((tokens.set w _).get? j).getD .Input = _
              rw [List.get?_set_ne _ _ (show ¬ w = j by omega)]
              rfl
            rw [hgj] at hvv
            have ht2n : t2.getD (w + 1) .Input = v := by
              show (t2.get? (w + 1)).getD .Input = v
              rw [hne (w + 1)
                (fun hm => absurd (hsw (w + 1) hm) (by omega)), hv]
              rfl
            rw [ht2n, selDecData_none_iff]
            rw [selDecData_none_iff] at hmax
            omega
        · have hy1 : y.length = w + 1 := by
            cases f with
            | zero =>
              rw [optLoopAux, if_neg hjl] at hok2
              cases hok2
              simp
              omega
            | succ f3 =>
              exact (optLoop_head len f3 _ j (w + 1) stk y hok2 hinv2).2 hjl
          omega
      rcases fuel2 with _ | f2
      · exact absurd hf2 (by omega)
      rw [optLoopAux_succ, if_pos hwy, ht2w]
      dsimp only
      rw [foldRun_stop t2 selDecData 256 y.length (w + 1) (yv % 256) hstop2]
      rw [show yv % 256 = yv from Nat.mod_eq_of_lt hvlt]
      refine ih (tokens.set w (.DecrementData yv)) j (w + 1) stk y f2
        (t2.set w (.DecrementData yv)) hok2 hinv2 (by simpa using ht2len)
        ?_ ?_ (by omega)
      · intro i hi
        rw [List.get?_set_ne _ _ (show ¬ w = i by have := hsw i hi; omega)]
        exact hstkpl i hi
      · intro i hi
        by_cases hiw : i = w
        · subst hiw
          rw [List.get?_set_eq_of_lt _ (by omega), hyw]
        · rw [List.get?_set_ne _ _ (fun hh => hiw hh.symm)]
          exact hne i hi
    | IncrementPointer x =>
      rw [hts] at hok
      dsimp only at hok
      rcases hfr : foldRun tokens selIncPtr (2 ^ 64) len (obs + 1)
        (x % 2 ^ 64) with ⟨j, yv⟩
      rw [hfr] at hok
      have hfr1 : foldRunAux tokens selIncPtr (2 ^ 64) len
          (len - (obs + 1)) (obs + 1) (x % 2 ^ 64) = (j, yv) := hfr
      have hge : obs + 1 ≤ j := by
        have := foldRunAux_ge tokens selIncPtr (2 ^ 64) len
          (len - (obs + 1)) (obs + 1) (x % 2 ^ 64)
        rw [hfr1] at this
        exact this
      have hle : j ≤ len := by
        have := foldRunAux_le tokens selIncPtr (2 ^ 64) len
          (len - (obs + 1)) (obs + 1) (x % 2 ^ 64) (by omega)
        rw [hfr1] at this
        exact this
      have hvlt : yv < 2 ^ 64 := by
        have := foldRunAux_val_lt tokens selIncPtr (2 ^ 64) len
          (by norm_num) (len - (obs + 1)) (obs + 1) (x % 2 ^ 64) (by omega)
        rw [hfr1] at this
        exact this
      have hok2 : optLoopAux len f (tokens.set w (.IncrementPointer yv)) j
          (w + 1) stk = .ok y := hok
      have hinv2 : OptInv1 len (tokens.set w (.IncrementPointer yv)) j
          (w + 1) stk :=
        OptInv1_write len tokens obs w j stk _
          ⟨hl, hwo, hol, hpw, hsw, hpl⟩ hobs (by omega) hle
      obtain ⟨hs1, hs2, _⟩ := optLoop_stable len f _ j (w + 1) stk y
        hok2 hinv2
      have hyw : y.get? w = some (.IncrementPointer yv) := by
        rw [hs1 w (by omega) hwnotstk]
        exact List.get?_set_eq_of_lt _ (by omega)
      have hwy : w < y.length := by omega
      have ht2w : t2.getD w .Input = .IncrementPointer yv := by
        show (t2.get? w).getD .Input = _
        rw [hne w hwnotstk, hyw]
        rfl
      have hstop2 : w + 1 < y.length →
          selIncPtr (t2.getD (w + 1) .Input) = none := by
        intro hlt
        by_cases hjl : j < len
        · have hmax : selIncPtr (tokens.getD j .Input) = none := by
            have := foldRunAux_stop tokens selIncPtr (2 ^ 64) len
              (len - (obs + 1)) (obs + 1) (x % 2 ^ 64) (by omega)
              (by rw [hfr1]; exact hjl)
            rw [hfr1] at this
            exact this
          cases f with
          | zero =>
            rw [optLoopAux, if_pos hjl] at hok2
            exact OptResult.noConfusion hok2
          | succ f3 =>
            obtain ⟨hhead, _⟩ := optLoop_head len f3 _ j (w + 1) stk y
              hok2 hinv2
            obtain ⟨v, hv, hvv⟩ := hhead hjl
            have hgj : (tokens.set w (.IncrementPointer yv)).getD j .Input
                = tokens.getD j .Input := by
              show ((tokens.set w _).get? j).getD .Input = _
              rw [List.get?_set_ne _ _ (show ¬ w = j by omega)]
              rfl
            rw [hgj] at hvv
            have ht2n : t2.getD (w + 1) .Input = v := by
              show (t2.get? (w + 1)).getD .Input = v
              rw [hne (w + 1)
                (fun hm => absurd (hsw (w + 1) hm) (by omega)), hv]
              rfl
            rw [ht2n, selIncPtr_none_iff]
            rw [selIncPtr_none_iff] at hmax
            omega
        · have hy1 : y.length = w + 1 := by
            cases f with
            | zero =>
              rw [optLoopAux, if_neg hjl] at hok2
              cases hok2
              simp
              omega
            | succ f3 =>
              exact (optLoop_head len f3 _ j (w + 1) stk y hok2 hinv2).2 hjl
          omega
      rcases fuel2 with _ | f2
      · exact absurd hf2 (by omega)
      rw [optLoopAux_succ, if_pos hwy, ht2w]
      dsimp only
      rw [foldRun_stop t2 selIncPtr (2 ^ 64) y.length (w + 1) (yv % 2 ^ 64)
        hstop2]
      rw [show yv % 2 ^ 64 = yv from Nat.mod_eq_of_lt hvlt]
      refine ih (tokens.set w (.IncrementPointer yv)) j (w + 1) stk y f2
        (t2.set w (.IncrementPointer yv)) hok2 hinv2 (by simpa using ht2len)
        ?_ ?_ (by omega)
      · intro i hi
        rw [List.get?_set_ne _ _ (show ¬ w = i by have := hsw i hi; omega)]
        exact hstkpl i hi
      · intro i hi
        by_cases hiw : i = w
        · subst hiw
          rw [List.get?_set_eq_of_lt _ (by omega), hyw]
        · rw [List.get?_set_ne _ _ (fun hh => hiw hh.symm)]
          exact hne i hi
    | DecrementPointer x =>
      rw [hts] at hok
      dsimp only at hok
      rcases hfr : foldRun tokens selDecPtr (2 ^ 64) len (obs + 1)
        (x % 2 ^ 64) with ⟨j, yv⟩
      rw [hfr] at hok
      have hfr1 : foldRunAux tokens selDecPtr (2 ^ 64) len
          (len - (obs + 1)) (obs + 1) (x % 2 ^ 64) = (j, yv) := hfr
      have hge : obs + 1 ≤ j := by
        have := foldRunAux_ge tokens selDecPtr (2 ^ 64) len
          (len - (obs + 1)) (obs + 1) (x % 2 ^ 64)
        rw [hfr1] at this
        exact this
      have hle : j ≤ len := by
        have := foldRunAux_le tokens selDecPtr (2 ^ 64) len
          (len - (obs + 1)) (obs + 1) (x % 2 ^ 64) (by omega)
        rw [hfr1] at this
        exact this
      have hvlt : yv < 2 ^ 64 := by
        have := foldRunAux_val_lt tokens selDecPtr (2 ^ 64) len
          (by norm_num) (len - (obs + 1)) (obs + 1) (x % 2 ^ 64) (by omega)
        rw [hfr1] at this
        exact this
      have hok2 : optLoopAux len f (tokens.set w (.DecrementPointer yv)) j
          (w + 1) stk = .ok y := hok
      have hinv2 : OptInv1 len (tokens.set w (.DecrementPointer yv)) j
          (w + 1) stk :=
        OptInv1_write len tokens obs w j stk _
          ⟨hl, hwo, hol, hpw, hsw, hpl⟩ hobs (by omega) hle
      obtain ⟨hs1, hs2, _⟩ := optLoop_stable len f _ j (w + 1) stk y
        hok2 hinv2
      have hyw : y.get? w = some (.DecrementPointer yv) := by
        rw [hs1 w (by omega) hwnotstk]
        exact List.get?_set_eq_of_lt _ (by omega)
      have hwy : w < y.length := by omega
      have ht2w : t2.getD w .Input = .DecrementPointer yv := by
        show (t2.get? w).getD .Input = _
        rw [hne w hwnotstk, hyw]
        rfl
      have hstop2 : w + 1 < y.length →
          selDecPtr (t2.getD (w + 1) .Input) = none := by
        intro hlt
        by_cases hjl : j < len
        · have hmax : selDecPtr (tokens.getD j .Input) = none := by
            have := foldRunAux_stop tokens selDecPtr (2 ^ 64) len
              (len - (obs + 1)) (obs + 1) (x % 2 ^ 64) (by omega)
              (by rw [hfr1]; exact hjl)
            rw [hfr1] at this
            exact this
          cases f with
          | zero =>
            rw [optLoopAux, if_pos hjl] at hok2
            exact OptResult.noConfusion hok2
          | succ f3 =>
            obtain ⟨hhead, _⟩ := optLoop_head len f3 _ j (w + 1) stk y
              hok2 hinv2
            obtain ⟨v, hv, hvv⟩ := hhead hjl
            have hgj : (tokens.set w (.DecrementPointer yv)).getD j .Input
                = tokens.getD j .Input := by
              show ((tokens.set w _).get? j).getD .Input = _
              rw [List.get?_set_ne _ _ (show ¬ w = j by omega)]
              rfl
            rw [hgj] at hvv
            have ht2n : t2.getD (w + 1) .Input = v := by
              show (t2.get? (w + 1)).getD .Input = v
              rw [hne (w + 1)
                (fun hm => absurd (hsw (w + 1) hm) (by omega)), hv]
              rfl
            rw [ht2n, selDecPtr_none_iff]
            rw [selDecPtr_none_iff] at hmax
            omega
        · have hy1 : y.length = w + 1 := by
            cases f with
            | zero =>
              rw [optLoopAux, if_neg hjl] at hok2
              cases hok2
              simp
              omega
            | succ f3 =>
              exact (optLoop_head len f3 _ j (w + 1) stk y hok2 hinv2).2 hjl
          omega
      rcases fuel2 with _ | f2
      · exact absurd hf2 (by omega)
      rw [optLoopAux_succ, if_pos hwy, ht2w]
      dsimp only
      rw [foldRun_stop t2 selDecPtr (2 ^ 64) y.length (w + 1) (yv % 2 ^ 64)
        hstop2]
      rw [show yv % 2 ^ 64 = yv from Nat.mod_eq_of_lt hvlt]
      refine ih (tokens.set w (.DecrementPointer yv)) j (w + 1) stk y f2
        (t2.set w (.DecrementPointer yv)) hok2 hinv2 (by simpa using ht2len)
        ?_ ?_ (by omega)
      · intro i hi
        rw [List.get?_set_ne _ _ (show ¬ w = i by have := hsw i hi; omega)]
        exact hstkpl i hi
      · intro i hi
        by_cases hiw : i = w
        · subst hiw
          rw [List.get?_set_eq_of_lt _ (by omega), hyw]
        · rw [List.get?_set_ne _ _ (fun hh => hiw hh.symm)]
          exact hne i hi
    | Input =>
      rw [hts] at hok
      dsimp only at hok
      have hok2 : optLoopAux len f (tokens.set w .Input) (obs + 1)
          (w + 1) stk = .ok y := hok
      have hinv2 : OptInv1 len (tokens.set w .Input) (obs + 1)
          (w + 1) stk :=
        OptInv1_write len tokens obs w (obs + 1) stk _
          ⟨hl, hwo, hol, hpw, hsw, hpl⟩ hobs (by omega) (by omega)
      obtain ⟨hs1, hs2, _⟩ := optLoop_stable len f _ (obs + 1) (w + 1) stk y
        hok2 hinv2
      have hyw : y.get? w = some .Input := by
        rw [hs1 w (by omega) hwnotstk]
        exact List.get?_set_eq_of_lt _ (by omega)
      have hwy : w < y.length := by omega
      have ht2w : t2.getD w .Input = .Input := by
        show (t2.get? w).getD .Input = _
        rw [hne w hwnotstk, hyw]
        rfl
      rcases fuel2 with _ | f2
      · exact absurd hf2 (by omega)
      rw [optLoopAux_succ, if_pos hwy, ht2w]
      dsimp only
      refine ih (tokens.set w .Input) (obs + 1) (w + 1) stk y f2
        (t2.set w .Input) hok2 hinv2 (by simpa using ht2len)
        ?_ ?_ (by omega)
      · intro i hi
        rw [List.get?_set_ne _ _ (show ¬ w = i by have := hsw i hi; omega)]
        exact hstkpl i hi
      · intro i hi
        by_cases hiw : i = w
        · subst hiw
          rw [List.get?_set_eq_of_lt _ (by omega), hyw]
        · rw [List.get?_set_ne _ _ (fun hh => hiw hh.symm)]
          exact hne i hi
    | Output =>
      rw [hts] at hok
      dsimp only at hok
      have hok2 : optLoopAux len f (tokens.set w .Output) (obs + 1)
          (w + 1) stk = .ok y := hok
      have hinv2 : OptInv1 len (tokens.set w .Output) (obs + 1)
          (w + 1) stk :=
        OptInv1_write len tokens obs w (obs + 1) stk _
          ⟨hl, hwo, hol, hpw, hsw, hpl⟩ hobs (by omega) (by omega)
      obtain ⟨hs1, hs2, _⟩ := optLoop_stable len f _ (obs + 1) (w + 1) stk y
        hok2 hinv2
      have hyw : y.get? w = some .Output := by
        rw [hs1 w (by omega) hwnotstk]
        exact List.get?_set_eq_of_lt _ (by omega)
      have hwy : w < y.length := by omega
      have ht2w : t2.getD w .Input = .Output := by
        show (t2.get? w).getD .Input = _
        rw [hne w hwnotstk, hyw]
        rfl
      rcases fuel2 with _ | f2
      · exact absurd hf2 (by omega)
      rw [optLoopAux_succ, if_pos hwy, ht2w]
      dsimp only
      refine ih (tokens.set w .Output) (obs + 1) (w + 1) stk y f2
        (t2.set w .Output) hok2 hinv2 (by simpa using ht2len)
        ?_ ?_ (by omega)
      · intro i hi
        rw [List.get?_set_ne _ _ (show ¬ w = i by have := hsw i hi; omega)]
        exact hstkpl i hi
      · intro i hi
        by_cases hiw : i = w
        · subst hiw
          rw [List.get?_set_eq_of_lt _ (by omega), hyw]
        · rw [List.get?_set_ne _ _ (fun hh => hiw hh.symm)]
          exact hne i hi
    | LoopStart x =>
      rw [hts] at hok
      dsimp only at hok
      have hok2 : optLoopAux len f (tokens.set w (.LoopStart 0)) (obs + 1)
          (w + 1) (w :: stk) = .ok y := hok
      have hinv2 : OptInv1 len (tokens.set w (.LoopStart 0)) (obs + 1)
          (w + 1) (w :: stk) :=
        OptInv1_loopstart len tokens obs w stk
          ⟨hl, hwo, hol, hpw, hsw, hpl⟩ hobs
      obtain ⟨hs1, hs2, hs3⟩ := optLoop_stable len f _ (obs + 1) (w + 1)
        (w :: stk) y hok2 hinv2
      obtain ⟨k, hyw⟩ := hs3 w (List.mem_cons_self _ _)
      have hwy : w < y.length := by omega
      have ht2w : t2.getD w .Input = .LoopStart k := by
        show (t2.get? w).getD .Input = _
        rw [hne w hwnotstk, hyw]
        rfl
      rcases fuel2 with _ | f2
      · exact absurd hf2 (by omega)
      rw [optLoopAux_succ, if_pos hwy, ht2w]
      dsimp only
      refine ih (tokens.set w (.LoopStart 0)) (obs + 1) (w + 1) (w :: stk)
        y f2 (t2.set w (.LoopStart 0)) hok2 hinv2 (by simpa using ht2len)
        ?_ ?_ (by omega)
      · intro i hi
        rcases List.mem_cons.mp hi with rfl | hi2
        · exact List.get?_set_eq_of_lt _ (by omega)
        · rw [List.get?_set_ne _ _
            (show ¬ w = i by have := hsw i hi2; omega)]
          exact hstkpl i hi2
      · intro i hi
        have hiw : i ≠ w := fun hh => hi (hh ▸ List.mem_cons_self _ _)
        rw [List.get?_set_ne _ _ (fun hh => hiw hh.symm)]
        exact hne i (fun hm => hi (List.mem_cons_of_mem _ hm))
    | LoopEnd x =>
      rw [hts] at hok
      dsimp only at hok
      cases hstk2 : stk with
      | nil =>
        rw [hstk2] at hok
        exact OptResult.noConfusion hok
      | cons org rest =>
        subst hstk2
        dsimp only at hok
        have horgw : org < w := hsw org (List.mem_cons_self _ _)
        have hporg : tokens.get? org = some (.LoopStart 0) :=
          hpl org (List.mem_cons_self _ _)
        rw [if_pos hporg] at hok
        have hrest : ∀ i ∈ rest, i < org :=
          fun i hi => (List.pairwise_cons.mp hpw).1 i hi
        have hok2 : optLoopAux len f
            ((tokens.set org (.LoopStart (w % 2 ^ 32))).set w
              (.LoopEnd (org % 2 ^ 32))) (obs + 1) (w + 1) rest
            = .ok y := hok
        have hinv2 : OptInv1 len
            ((tokens.set org (.LoopStart (w % 2 ^ 32))).set w
              (.LoopEnd (org % 2 ^ 32))) (obs + 1) (w + 1) rest :=
          OptInv1_loopend len tokens obs w org rest _ _
            ⟨hl, hwo, hol, hpw, hsw, hpl⟩ hobs
        obtain ⟨hs1, hs2, _⟩ := optLoop_stable len f _ (obs + 1) (w + 1)
          rest y hok2 hinv2
        have hyw : y.get? w = some (.LoopEnd (org % 2 ^ 32)) := by
          rw [hs1 w (by omega) (fun hm => absurd (hrest w hm) (by omega))]
          exact List.get?_set_eq_of_lt _ (by simp; omega)
        have hyorg : y.get? org = some (.LoopStart (w % 2 ^ 32)) := by
          rw [hs1 org (by omega)
            (fun hm => absurd (hrest org hm) (lt_irrefl org))]
          rw [List.get?_set_ne _ _ (show ¬ w = org by omega)]
          exact List.get?_set_eq_of_lt _ (by omega)
        have hwy : w < y.length := by omega
        have ht2w : t2.getD w .Input = .LoopEnd (org % 2 ^ 32) := by
          show (t2.get? w).getD .Input = _
          rw [hne w hwnotstk, hyw]
          rfl
        rcases fuel2 with _ | f2
        · exact absurd hf2 (by omega)
        rw [optLoopAux_succ, if_pos hwy, ht2w]
        dsimp only
        rw [if_pos (hstkpl org (List.mem_cons_self _ _))]
        refine ih ((tokens.set org (.LoopStart (w % 2 ^ 32))).set w
            (.LoopEnd (org % 2 ^ 32))) (obs + 1) (w + 1) rest y f2
          ((t2.set org (.LoopStart (w % 2 ^ 32))).set w
            (.LoopEnd (org % 2 ^ 32))) hok2 hinv2 (by simpa using ht2len)
          ?_ ?_ (by omega)
        · intro i hi
          rw [List.get?_set_ne _ _
            (show ¬ w = i by have := hrest i hi; omega),
            List.get?_set_ne _ _
            (show ¬ org = i by have := hrest i hi; omega)]
          exact hstkpl i (List.mem_cons_of_mem _ hi)
        · intro i hi
          by_cases hiw : i = w
          · subst hiw
            rw [List.get?_set_eq_of_lt _ (by simp; omega), hyw]
          by_cases hio : i = org
          · subst hio
            rw [List.get?_set_ne _ _ (fun hh => hiw hh.symm),
              List.get?_set_eq_of_lt _ (by omega), hyorg]
          · rw [List.get?_set_ne _ _ (fun hh => hiw hh.symm),
              List.get?_set_ne _ _ (fun hh => hio hh.symm)]
            refine hne i (fun hm => ?_)
            rcases List.mem_cons.mp hm with h1 | h2
            · exact hio h1
            · exact hi h2

/-- A successful optimize output is a fixed point of optimize. -/
theorem optimize_idem (t y : List Token) (h : optimize t = .ok y) :
    optimize y = .ok y := by
  unfold optimize at h ⊢
  refine optLoop_pass2 t.length t.length t 0 0 [] y y.length y h
    ?_ rfl ?_ ?_ (by omega)
  · exact ⟨rfl, Nat.le_refl 0, Nat.zero_le _, List.Pairwise.nil,
      fun i hi => absurd hi (List.not_mem_nil i),
      fun i hi => absurd hi (List.not_mem_nil i)⟩
  · intro i hi
    exact absurd hi (List.not_mem_nil i)
  · intro i _
    rfl

/-- C10: on every sequence satisfying the mutual bracket-target
invariant, applying optimize twice yields the same result as applying
it once: a successful first pass produces a fixed point (no two
adjacent foldable runs remain and the re-derived targets are
reproduced), and a panicking first pass leaves nothing further to
optimize.  The invariant hypothesis is not actually needed: any
successful optimize output is a fixed point. -/
theorem c10_optimize_idempotent (t : List Token) (hv : MutualTargets t) :
    optTwice (optimize t) = optimize t := by
  cases hopt : optimize t with
  | ok y =>
    show optimize y = .ok y
    exact optimize_idem t y hopt
  | panicked => rfl
  | fuelOut => rfl

/-- Witness for C10: the two-instruction loop, whose brackets are
mutually matched. -/
theorem c10_optimize_idempotent_witness :
    optTwice (optimize [Token.LoopStart 1, .LoopEnd 0])
      = optimize [Token.LoopStart 1, .LoopEnd 0] := by
  refine c10_optimize_idempotent [Token.LoopStart 1, .LoopEnd 0] ⟨?_, ?_⟩
  · intro i j h
    match i, h with
    | 0, h => cases h; rfl
    | 1, h => exact Token.noConfusion (Option.some.inj h)
    | n + 2, h => exact Option.noConfusion h
  · intro i j h
    match j, h with
    | 0, h => exact Token.noConfusion (Option.some.inj h)
    | 1, h => cases h; rfl
    | n + 2, h => exact Option.noConfusion h

end BF
